import Mathlib

/-!
Verification development for the tanaw-tool frame-sampling and redaction
pipeline.  The Python sources are shallowly embedded:

* `src/logic/gps_extractor.py`   — GPS/distance-based frame sampler
* `src/logic/histogram_extractor.py` — histogram-based frame sampler
* `src/logic/anonymizer.py`      — detection-driven blur/redaction pipeline
* `src/main.py`                  — batched caller and coordinate conversions

Python floats are modelled as exact rationals (`ℚ`) except where the
histogram comparison genuinely needs square roots, where reals (`ℝ`) are
used.  External library calls (haversine, the video decoder, the YOLO
detector, the Gaussian blur kernel) are passed in as function parameters so
theorems quantify over their behaviour; their argument/return shapes follow
the call sites in the source.
-/

namespace Tanaw

/-- Python `int(x)` on a float: truncation toward zero. -/
def pyint (q : ℚ) : ℤ := if q < 0 then ⌈q⌉ else ⌊q⌋

/-- Python 3 `round(x)` on a float: round half to even (banker's rounding). -/
def pyround (q : ℚ) : ℤ :=
  if q - ⌊q⌋ < 1/2 then ⌊q⌋
  else if 1/2 < q - ⌊q⌋ then ⌊q⌋ + 1
  else if Even ⌊q⌋ then ⌊q⌋ else ⌊q⌋ + 1

/-! ## GPS-based extractor (`src/logic/gps_extractor.py`)

A parsed GPX track is the list of `(latitude, longitude, timestamp)` triples
collected at lines 28–32; timestamps are `.timestamp()` seconds as `ℚ`.
The haversine library function (km between two lat/lon pairs) is a
parameter `hav`.  Reading a frame from the video (`cap.set`/`cap.read`,
lines 70–71) can fail at the decoder; that external outcome is the
parameter `readOk`. -/

/-- Lat/lon projection `point[:2]` of a GPX point triple. -/
def latlon (p : ℚ × ℚ × ℚ) : ℚ × ℚ := (p.1, p.2.1)

/-- Timestamp projection of a GPX point triple. -/
def ptime (p : ℚ × ℚ × ℚ) : ℚ := p.2.2

/-- Tail of the cumulative-distance table (gps_extractor.py lines 40–42):
`distances.append(distances[-1] + haversine(prev, cur) * 1000)`. -/
def cumDistsAux (hav : ℚ × ℚ → ℚ × ℚ → ℚ) :
    ℚ × ℚ → ℚ → List (ℚ × ℚ × ℚ) → List ℚ
  | _, _, [] => []
  | prev, acc, p :: rest =>
      let d := acc + hav prev (latlon p) * 1000
      d :: cumDistsAux hav (latlon p) d rest

/-- Cumulative distance table, `distances = [0.0]` then pairwise haversine
sums in meters (gps_extractor.py lines 38–43). -/
def cumDists (hav : ℚ × ℚ → ℚ × ℚ → ℚ) : List (ℚ × ℚ × ℚ) → List ℚ
  | [] => []
  | p :: rest => 0 :: cumDistsAux hav (latlon p) 0 rest

/-- `distances[-1]`, the total track length in meters. -/
def gpsTotalDistance (hav : ℚ × ℚ → ℚ × ℚ → ℚ) (points : List (ℚ × ℚ × ℚ)) : ℚ :=
  (cumDists hav points).getLastD 0

/-- `np.arange(0, stop, step)`: values `i * step` for
`0 ≤ i < ⌈stop / step⌉` (the numpy element count). -/
def npArange (stop step : ℚ) : List ℚ :=
  (List.range (⌈stop / step⌉).toNat).map (fun (i : ℕ) => (i : ℚ) * step)

/-- `np.interp` walk: `cur` is the last table entry `(xp, fp)` with
`xp ≤ x`; advance while the next entry still satisfies that, otherwise
linearly interpolate inside the current segment.  Matches numpy's
piecewise-linear rule, including taking the last entry of a run of equal
`xp` values and clamping to `fp[-1]` past the table end. -/
def npInterpAux (x : ℚ) : List (ℚ × ℚ) → ℚ × ℚ → ℚ
  | [], cur => cur.2
  | q :: rest, cur =>
      if q.1 ≤ x then npInterpAux x rest q
      else cur.2 + (q.2 - cur.2) * (x - cur.1) / (q.1 - cur.1)

/-- `np.interp(x, xp, fp)` over the table `xp.zip fp`; clamps to `fp[0]`
below the table. -/
def npInterp (x : ℚ) : List (ℚ × ℚ) → ℚ
  | [] => 0
  | q :: rest => if x < q.1 then q.2 else npInterpAux x rest q

/-- `query_distances = np.arange(0, distances[-1], interval)`
(gps_extractor.py line 45). -/
def gpsQueryDistances (hav : ℚ × ℚ → ℚ × ℚ → ℚ) (points : List (ℚ × ℚ × ℚ))
    (interval : ℚ) : List ℚ :=
  npArange (gpsTotalDistance hav points) interval

/-- `query_times = np.interp(query_distances, distances, timestamps)`
(gps_extractor.py line 46). -/
def gpsQueryTimes (hav : ℚ × ℚ → ℚ × ℚ → ℚ) (points : List (ℚ × ℚ × ℚ))
    (interval : ℚ) : List ℚ :=
  (gpsQueryDistances hav points interval).map
    (fun d => npInterp d ((cumDists hav points).zip (points.map ptime)))

/-- Frame-saving loop (gps_extractor.py lines 62–75): for each query time,
`frame_num = int(fps * (sec - query_times[0]))`; a frame number equal to
the previous one is skipped; otherwise the frame is read (external
`readOk`) and, on success, saved.  Output entries are
`(enumerate index, frame number)` — the source writes the file
`{video}_frame_{idx:04d}.jpg` holding frame `frame_num`. -/
def gpsFrameLoop (fps t0 : ℚ) (readOk : ℤ → Bool) :
    List ℚ → ℕ → Option ℤ → List (ℕ × ℤ)
  | [], _, _ => []
  | sec :: rest, idx, last =>
      let fn := pyint (fps * (sec - t0))
      if some fn = last then gpsFrameLoop fps t0 readOk rest (idx + 1) last
      else
        (if readOk fn then [(idx, fn)] else []) ++
          gpsFrameLoop fps t0 readOk rest (idx + 1) (some fn)

/-- `extract_gps_based` (gps_extractor.py lines 7–78) after GPX parsing:
empty point list errors; then the cumulative table, query distances and
query times are built; a non-positive fps errors; otherwise the saving
loop runs.  GPX parse failures and directory creation are external I/O and
outside the model. -/
def extract_gps_based (hav : ℚ × ℚ → ℚ × ℚ → ℚ) (points : List (ℚ × ℚ × ℚ))
    (fps interval : ℚ) (readOk : ℤ → Bool) : Except String (List (ℕ × ℤ)) :=
  match points with
  | [] => .error "No GPS points found in GPX file"
  | _ :: _ =>
      let qt := gpsQueryTimes hav points interval
      if fps ≤ 0 then .error "Could not determine video FPS"
      else .ok (gpsFrameLoop fps (qt.headD 0) readOk qt 0 none)

/-- C1: for a track with at least one waypoint and positive total haversine
distance, and a positive spacing, the GPS sampler's query distances are
exactly `0, interval, 2·interval, …`, each strictly below the total
distance, in non-decreasing order. -/
theorem gps_query_distances_multiples (hav : ℚ × ℚ → ℚ × ℚ → ℚ)
    (points : List (ℚ × ℚ × ℚ)) (interval : ℚ)
    (hne : points ≠ []) (htot : 0 < gpsTotalDistance hav points)
    (hiv : 0 < interval) :
    (gpsQueryDistances hav points interval).head? = some 0 ∧
    (∀ (i : ℕ) (hi : i < (gpsQueryDistances hav points interval).length),
      (gpsQueryDistances hav points interval).get ⟨i, hi⟩ = (i : ℚ) * interval) ∧
    (∀ q ∈ gpsQueryDistances hav points interval,
      q < gpsTotalDistance hav points) ∧
    (gpsQueryDistances hav points interval).Pairwise (· ≤ ·) := by
  have hq : 0 < gpsTotalDistance hav points / interval := div_pos htot hiv
  have hceil : 1 ≤ ⌈gpsTotalDistance hav points / interval⌉ := Int.ceil_pos.mpr hq
  refine ⟨?_, ?_, ?_, ?_⟩
  · obtain ⟨m, hm⟩ : ∃ m, (⌈gpsTotalDistance hav points / interval⌉).toNat = m + 1 :=
      ⟨(⌈gpsTotalDistance hav points / interval⌉).toNat - 1, by omega⟩
    simp [gpsQueryDistances, npArange, hm, List.range_succ_eq_map]
  · intro i hi
    simp only [gpsQueryDistances, npArange, List.length_map, List.length_range] at hi
    simp only [gpsQueryDistances, npArange, List.get_eq_getElem, List.getElem_map,
      List.getElem_range]
  · intro q hq'
    simp only [gpsQueryDistances, npArange, List.mem_map, List.mem_range] at hq'
    obtain ⟨i, hi, rfl⟩ := hq'
    have h1 : (i : ℤ) < ⌈gpsTotalDistance hav points / interval⌉ := by omega
    have h2 : (i : ℚ) < gpsTotalDistance hav points / interval := by
      have h4 := Int.ceil_lt_add_one (gpsTotalDistance hav points / interval)
      have h3 : ((i : ℤ) : ℚ) ≤ (⌈gpsTotalDistance hav points / interval⌉ : ℚ) - 1 := by
        exact_mod_cast Int.le_sub_one_of_lt h1
      push_cast at h3
      linarith
    exact (lt_div_iff₀ hiv).mp h2
  · simp only [gpsQueryDistances, npArange, List.pairwise_map]
    refine List.Pairwise.imp ?_ (List.pairwise_lt_range _)
    intro a b h
    exact mul_le_mul_of_nonneg_right (by exact_mod_cast h.le) hiv.le

/-- Witness for C1: a two-point track of total distance 1000 m with a
700 m interval satisfies the hypotheses, and the theorem applies. -/
theorem gps_query_distances_multiples_witness :
    ([((0:ℚ), (0:ℚ), (0:ℚ)), (0, 0, 1)] ≠ ([] : List (ℚ × ℚ × ℚ))) ∧
    0 < gpsTotalDistance (fun _ _ => 1) [((0:ℚ), (0:ℚ), (0:ℚ)), (0, 0, 1)] ∧
    0 < (700 : ℚ) ∧
    ((gpsQueryDistances (fun _ _ => 1) [((0:ℚ), (0:ℚ), (0:ℚ)), (0, 0, 1)] 700).head? =
        some 0 ∧
      (∀ (i : ℕ) (hi : i <
          (gpsQueryDistances (fun _ _ => 1) [((0:ℚ), (0:ℚ), (0:ℚ)), (0, 0, 1)] 700).length),
        (gpsQueryDistances (fun _ _ => 1) [((0:ℚ), (0:ℚ), (0:ℚ)), (0, 0, 1)] 700).get
            ⟨i, hi⟩ = (i : ℚ) * 700) ∧
      (∀ q ∈ gpsQueryDistances (fun _ _ => 1) [((0:ℚ), (0:ℚ), (0:ℚ)), (0, 0, 1)] 700,
        q < gpsTotalDistance (fun _ _ => 1) [((0:ℚ), (0:ℚ), (0:ℚ)), (0, 0, 1)]) ∧
      (gpsQueryDistances (fun _ _ => 1)
          [((0:ℚ), (0:ℚ), (0:ℚ)), (0, 0, 1)] 700).Pairwise (· ≤ ·)) :=
  ⟨by simp, by norm_num [gpsTotalDistance, cumDists, cumDistsAux], by norm_num,
    gps_query_distances_multiples (fun _ _ => 1)
      [((0:ℚ), (0:ℚ), (0:ℚ)), (0, 0, 1)] 700 (by simp)
      (by norm_num [gpsTotalDistance, cumDists, cumDistsAux]) (by norm_num)⟩

/-- Counterexample for C7: on a one-waypoint track (zero waypoint-to-waypoint
distance, hence zero total distance) with a readable 30 fps video, the
extractor returns an empty success, not an error, contradicting the claim
that a zero-distance track yields an `InputError`. -/
theorem gps_zero_distance_returns_ok_empty :
    extract_gps_based (fun _ _ => 1) [((14:ℚ), (121:ℚ), (0:ℚ))] 30 5 (fun _ => true) =
      .ok [] := by
  norm_num [extract_gps_based, gpsQueryTimes, gpsQueryDistances, gpsTotalDistance,
    cumDists, cumDistsAux, npArange, gpsFrameLoop]

/-- C7 (amended): the extractor errors on a track with zero waypoints; on a
track with waypoints but zero total distance (and a positive fps) it
returns an empty frame list with `None` as the error, i.e. success. -/
theorem gps_input_errors_amended (hav : ℚ × ℚ → ℚ × ℚ → ℚ)
    (points : List (ℚ × ℚ × ℚ)) (fps interval : ℚ) (readOk : ℤ → Bool) :
    (extract_gps_based hav [] fps interval readOk =
        .error "No GPS points found in GPX file") ∧
    (points ≠ [] → gpsTotalDistance hav points = 0 → 0 < fps →
      extract_gps_based hav points fps interval readOk = .ok []) := by
  constructor
  · rfl
  · intro hne htot hfps
    match points, hne with
    | p :: rest, _ =>
      have hq : gpsQueryTimes hav (p :: rest) interval = [] := by
        have : gpsQueryDistances hav (p :: rest) interval = [] := by
          simp only [gpsQueryDistances, npArange, htot, zero_div, Int.ceil_zero,
            Int.toNat_zero, List.range_zero, List.map_nil]
        simp [gpsQueryTimes, this]
      simp [extract_gps_based, hq, not_le.mpr hfps, gpsFrameLoop]

/-- Witness for C7 (amended): a concrete two-waypoint track whose segments
have zero haversine length, with fps 30. -/
theorem gps_input_errors_amended_witness :
    ([((1:ℚ), (2:ℚ), (0:ℚ)), (1, 2, 10)] ≠ ([] : List (ℚ × ℚ × ℚ))) ∧
    gpsTotalDistance (fun _ _ => 0) [((1:ℚ), (2:ℚ), (0:ℚ)), (1, 2, 10)] = 0 ∧
    0 < (30 : ℚ) ∧
    extract_gps_based (fun _ _ => 0) [((1:ℚ), (2:ℚ), (0:ℚ)), (1, 2, 10)] 30 5
      (fun _ => true) = .ok [] :=
  ⟨by simp, by norm_num [gpsTotalDistance, cumDists, cumDistsAux], by norm_num,
    (gps_input_errors_amended (fun _ _ => 0) [((1:ℚ), (2:ℚ), (0:ℚ)), (1, 2, 10)] 30 5
      (fun _ => true)).2 (by simp)
      (by norm_num [gpsTotalDistance, cumDists, cumDistsAux]) (by norm_num)⟩

/-! ### Monotonicity facts used for the frame-number mapping (C3) -/

/-- Componentwise `≤` on table entries `(distance, timestamp)`. -/
def pairLE (a b : ℚ × ℚ) : Prop := a.1 ≤ b.1 ∧ a.2 ≤ b.2

/-- Truncation toward zero is monotone. -/
theorem pyint_mono {x y : ℚ} (hxy : x ≤ y) : pyint x ≤ pyint y := by
  unfold pyint
  split_ifs with hx hy hy
  · exact Int.ceil_le_ceil hxy
  · calc ⌈x⌉ ≤ 0 := Int.ceil_le.mpr (by exact_mod_cast hx.le)
      _ ≤ ⌊y⌋ := Int.le_floor.mpr (by exact_mod_cast not_lt.mp hy)
  · exact absurd (lt_of_le_of_lt hxy hy) hx
  · exact Int.floor_le_floor hxy

/-- `npArange` output is non-decreasing for a positive step. -/
theorem npArange_pairwise_le (stop step : ℚ) (hs : 0 < step) :
    (npArange stop step).Pairwise (· ≤ ·) := by
  simp only [npArange, List.pairwise_map]
  refine List.Pairwise.imp ?_ (List.pairwise_lt_range _)
  intro a b h
  exact mul_le_mul_of_nonneg_right (by exact_mod_cast h.le) hs.le

/-- The cumulative-distance tail never drops below its accumulator when the
pairwise distance function is non-negative. -/
theorem cumDistsAux_chain (hav : ℚ × ℚ → ℚ × ℚ → ℚ) (hnn : ∀ a b, 0 ≤ hav a b) :
    ∀ (rest : List (ℚ × ℚ × ℚ)) (prev : ℚ × ℚ) (acc : ℚ),
      List.Chain (· ≤ ·) acc (cumDistsAux hav prev acc rest)
  | [], _, _ => List.Chain.nil
  | p :: rest, prev, acc => by
      refine List.Chain.cons ?_ (cumDistsAux_chain hav hnn rest (latlon p) _)
      have := hnn prev (latlon p)
      nlinarith

/-- The cumulative-distance table is non-decreasing. -/
theorem cumDists_chain (hav : ℚ × ℚ → ℚ × ℚ → ℚ) (hnn : ∀ a b, 0 ≤ hav a b)
    (points : List (ℚ × ℚ × ℚ)) :
    (cumDists hav points).Chain' (· ≤ ·) := by
  cases points with
  | nil => exact List.chain'_nil
  | cons p rest => exact cumDistsAux_chain hav hnn rest (latlon p) 0

/-- Zipping two non-decreasing lists gives a componentwise non-decreasing
list of pairs. -/
theorem chain_zip_pairLE :
    ∀ (l m : List ℚ), l.Chain' (· ≤ ·) → m.Chain' (· ≤ ·) →
      (l.zip m).Chain' pairLE
  | [], _, _, _ => by simp
  | [a], m, _, _ => by cases m <;> simp
  | a :: a2 :: l, [], _, _ => by simp
  | a :: a2 :: l, b :: m, hl, hm => by
      cases m with
      | nil => simp
      | cons b2 m =>
          rw [List.zip_cons_cons, List.zip_cons_cons, List.chain'_cons]
          rw [List.chain'_cons] at hl hm
          exact ⟨⟨hl.1, hm.1⟩,
            by
              have := chain_zip_pairLE (a2 :: l) (b2 :: m) hl.2 hm.2
              rwa [List.zip_cons_cons] at this⟩

/-- Inside `npInterpAux` the running value never drops below the current
entry's value (table non-decreasing, query at or past the current entry). -/
theorem npInterpAux_ge (x : ℚ) :
    ∀ (pts : List (ℚ × ℚ)) (cur : ℚ × ℚ),
      List.Chain pairLE cur pts → cur.1 ≤ x → cur.2 ≤ npInterpAux x pts cur
  | [], cur, _, _ => le_refl _
  | q :: rest, cur, hch, hcx => by
      rcases hch with _ | ⟨⟨hq1, hq2⟩, hrest⟩
      unfold npInterpAux
      split_ifs with h
      · exact le_trans hq2 (npInterpAux_ge x rest q hrest h)
      · have hd : 0 < q.1 - cur.1 := by linarith [not_le.mp h]
        have hnum : 0 ≤ (q.2 - cur.2) * (x - cur.1) := by nlinarith
        have := div_nonneg hnum hd.le
        linarith

/-- `npInterpAux` is monotone in the query point. -/
theorem npInterpAux_mono {x y : ℚ} (hxy : x ≤ y) :
    ∀ (pts : List (ℚ × ℚ)) (cur : ℚ × ℚ),
      List.Chain pairLE cur pts → cur.1 ≤ x →
      npInterpAux x pts cur ≤ npInterpAux y pts cur
  | [], cur, _, _ => le_refl _
  | q :: rest, cur, hch, hcx => by
      rcases hch with _ | ⟨⟨hq1, hq2⟩, hrest⟩
      unfold npInterpAux
      split_ifs with h1 h2 h2
      · exact npInterpAux_mono hxy rest q hrest h1
      · exact absurd (le_trans h1 hxy) h2
      · -- x is inside the current segment, y is past its end
        have hge := npInterpAux_ge y rest q hrest h2
        have hd : 0 < q.1 - cur.1 := by linarith [not_le.mp h1]
        have ht : (x - cur.1) / (q.1 - cur.1) ≤ 1 := by
          rw [div_le_one hd]
          linarith [not_le.mp h1]
        have htn : 0 ≤ (x - cur.1) / (q.1 - cur.1) := div_nonneg (by linarith) hd.le
        have : cur.2 + (q.2 - cur.2) * (x - cur.1) / (q.1 - cur.1) ≤ q.2 := by
          rw [mul_div_assoc]
          nlinarith
        linarith
      · -- both queries inside the current segment
        have hd : 0 < q.1 - cur.1 := by linarith [not_le.mp h1]
        have h5 : (q.2 - cur.2) * (x - cur.1) / (q.1 - cur.1) ≤
            (q.2 - cur.2) * (y - cur.1) / (q.1 - cur.1) := by
          rw [div_le_div_iff hd hd]
          nlinarith [mul_nonneg (mul_nonneg (sub_nonneg.mpr hxy) (sub_nonneg.mpr hq2)) hd.le]
        linarith

/-- `npInterp` is monotone in the query point over a componentwise
non-decreasing table. -/
theorem npInterp_mono {x y : ℚ} (hxy : x ≤ y) (pts : List (ℚ × ℚ))
    (hch : pts.Chain' pairLE) : npInterp x pts ≤ npInterp y pts := by
  cases pts with
  | nil => exact le_refl _
  | cons q rest =>
      simp only [npInterp]
      split_ifs with h1 h2 h2
      · exact le_refl _
      · exact npInterpAux_ge y rest q hch (not_lt.mp h2)
      · exact absurd (lt_of_le_of_lt hxy h2) h1
      · exact npInterpAux_mono hxy rest q hch (not_lt.mp h1)

/-- The saving loop: with non-decreasing frame numbers ahead and a lower
bound from the dedup state, the written frame numbers are strictly
increasing, and every one exceeds the state's last frame number. -/
theorem gpsFrameLoop_strict (fps t0 : ℚ) (readOk : ℤ → Bool) :
    ∀ (secs : List ℚ) (idx : ℕ) (last : Option ℤ),
      (secs.map (fun s => pyint (fps * (s - t0)))).Pairwise (· ≤ ·) →
      (∀ l, last = some l → ∀ s ∈ secs, l ≤ pyint (fps * (s - t0))) →
      (gpsFrameLoop fps t0 readOk secs idx last).Pairwise (fun a b => a.2 < b.2) ∧
      (∀ p ∈ gpsFrameLoop fps t0 readOk secs idx last, ∀ l, last = some l → l < p.2)
  | [], _, _, _, _ => by simp [gpsFrameLoop]
  | sec :: rest, idx, last, hmono, hlast => by
      rw [List.map_cons, List.pairwise_cons] at hmono
      obtain ⟨h1, h2⟩ := hmono
      have hfn : ∀ s ∈ rest, pyint (fps * (sec - t0)) ≤ pyint (fps * (s - t0)) :=
        fun s hs => h1 _ (List.mem_map_of_mem _ hs)
      have hlast2 : ∀ l, some (pyint (fps * (sec - t0))) = some l →
          ∀ s ∈ rest, l ≤ pyint (fps * (s - t0)) := by
        intro l hl s hs
        cases Option.some_inj.mp hl
        exact hfn s hs
      simp only [gpsFrameLoop]
      split_ifs with he hro
      · -- duplicate frame number: skipped, state unchanged
        refine gpsFrameLoop_strict fps t0 readOk rest (idx + 1) last h2 ?_
        intro l hl s hs
        have hle : l = pyint (fps * (sec - t0)) := by
          rw [hl] at he
          exact (Option.some_inj.mp he).symm
        exact hle ▸ hfn s hs
      · -- new frame number, read succeeds: entry emitted
        obtain ⟨ihp, ihq⟩ :=
          gpsFrameLoop_strict fps t0 readOk rest (idx + 1)
            (some (pyint (fps * (sec - t0)))) h2 hlast2
        have hq : ∀ p ∈ gpsFrameLoop fps t0 readOk rest (idx + 1)
            (some (pyint (fps * (sec - t0)))), pyint (fps * (sec - t0)) < p.2 :=
          fun p hp => ihq p hp _ rfl
        constructor
        · simp only [List.singleton_append, List.pairwise_cons]
          exact ⟨fun p hp => hq p hp, ihp⟩
        · intro p hp l hl
          have hlt : l < pyint (fps * (sec - t0)) :=
            lt_of_le_of_ne (hlast l hl sec (List.mem_cons_self _ _))
              (fun hc => he (by rw [hl, hc]))
          rcases List.mem_append.mp hp with hmem | hmem
          · simp only [List.mem_singleton] at hmem
            rw [hmem]
            exact hlt
          · exact lt_trans hlt (hq p hmem)
      · -- new frame number, read fails: nothing emitted here
        obtain ⟨ihp, ihq⟩ :=
          gpsFrameLoop_strict fps t0 readOk rest (idx + 1)
            (some (pyint (fps * (sec - t0)))) h2 hlast2
        refine ⟨by simpa using ihp, ?_⟩
        intro p hp l hl
        have hlt : l < pyint (fps * (sec - t0)) :=
          lt_of_le_of_ne (hlast l hl sec (List.mem_cons_self _ _))
            (fun hc => he (by rw [hl, hc]))
        simp only [List.nil_append] at hp
        exact lt_trans hlt (ihq p hp _ rfl)

/-- Every entry written by the saving loop carries the truncated frame
number of the query time at its own enumerate index. -/
theorem gpsFrameLoop_mem (fps t0 : ℚ) (readOk : ℤ → Bool) :
    ∀ (secs : List ℚ) (idx : ℕ) (last : Option ℤ),
      ∀ p ∈ gpsFrameLoop fps t0 readOk secs idx last,
        ∃ j, ∃ hj : j < secs.length,
          p.1 = idx + j ∧ p.2 = pyint (fps * (secs.get ⟨j, hj⟩ - t0))
  | [], _, _, p, hp => by simp [gpsFrameLoop] at hp
  | sec :: rest, idx, last, p, hp => by
      simp only [gpsFrameLoop] at hp
      split_ifs at hp with he hro
      · obtain ⟨j, hj, h1, h2⟩ := gpsFrameLoop_mem fps t0 readOk rest (idx + 1) last p hp
        exact ⟨j + 1, by simpa using hj, by omega, h2⟩
      · rcases List.mem_append.mp hp with hmem | hmem
        · simp only [List.mem_singleton] at hmem
          exact ⟨0, by simp, by simp [hmem], by simp [hmem]⟩
        · obtain ⟨j, hj, h1, h2⟩ :=
            gpsFrameLoop_mem fps t0 readOk rest (idx + 1) _ p hmem
          exact ⟨j + 1, by simpa using hj, by omega, h2⟩
      · simp only [List.nil_append] at hp
        obtain ⟨j, hj, h1, h2⟩ :=
          gpsFrameLoop_mem fps t0 readOk rest (idx + 1) _ p hp
        exact ⟨j + 1, by simpa using hj, by omega, h2⟩

/-- C3 (amended): in the GPS-based extractor every query instant is mapped
to a frame index by TRUNCATION, `frame_index = int(fps · (instant −
first_instant))` (not by rounding); consecutive query instants mapping to
the same frame index are collapsed to the first occurrence, so the written
frame indices are strictly increasing (given non-negative pairwise
distances and non-decreasing track timestamps). -/
theorem gps_frame_mapping_truncation (hav : ℚ × ℚ → ℚ × ℚ → ℚ)
    (points : List (ℚ × ℚ × ℚ)) (fps interval : ℚ) (readOk : ℤ → Bool)
    (saved : List (ℕ × ℤ))
    (hnn : ∀ a b, 0 ≤ hav a b)
    (hts : (points.map ptime).Chain' (· ≤ ·))
    (hiv : 0 < interval)
    (h : extract_gps_based hav points fps interval readOk = .ok saved) :
    saved.Pairwise (fun a b => a.2 < b.2) ∧
    ∀ p ∈ saved, ∃ hp : p.1 < (gpsQueryTimes hav points interval).length,
      p.2 = pyint (fps * ((gpsQueryTimes hav points interval).get ⟨p.1, hp⟩ -
        (gpsQueryTimes hav points interval).headD 0)) := by
  cases points with
  | nil => simp [extract_gps_based] at h
  | cons p0 rest0 =>
      simp only [extract_gps_based] at h
      by_cases hfps : fps ≤ 0
      · rw [if_pos hfps] at h
        exact absurd h (by simp)
      · rw [if_neg hfps, Except.ok.injEq] at h
        have hfps2 : 0 < fps := not_le.mp hfps
        have htable : ((cumDists hav (p0 :: rest0)).zip
            ((p0 :: rest0).map ptime)).Chain' pairLE :=
          chain_zip_pairLE _ _ (cumDists_chain hav hnn _) hts
        have hqd : (gpsQueryDistances hav (p0 :: rest0) interval).Pairwise (· ≤ ·) :=
          npArange_pairwise_le _ _ hiv
        have hqtp : (gpsQueryTimes hav (p0 :: rest0) interval).Pairwise (· ≤ ·) := by
          simp only [gpsQueryTimes, List.pairwise_map]
          exact hqd.imp (fun hab => npInterp_mono hab _ htable)
        have hfns : ((gpsQueryTimes hav (p0 :: rest0) interval).map
            (fun s => pyint (fps *
              (s - (gpsQueryTimes hav (p0 :: rest0) interval).headD 0)))).Pairwise
            (· ≤ ·) := by
          rw [List.pairwise_map]
          refine hqtp.imp (fun hab => pyint_mono ?_)
          exact mul_le_mul_of_nonneg_left (sub_le_sub_right hab _) hfps2.le
        obtain ⟨hpw, _⟩ := gpsFrameLoop_strict fps
          ((gpsQueryTimes hav (p0 :: rest0) interval).headD 0) readOk
          (gpsQueryTimes hav (p0 :: rest0) interval) 0 none hfns (by simp)
        constructor
        · rw [← h]
          exact hpw
        · rintro ⟨pi, pf⟩ hp
          rw [← h] at hp
          obtain ⟨j, hj, h1, h2⟩ := gpsFrameLoop_mem fps _ readOk _ 0 none _ hp
          simp only at h1 h2
          have hij : pi = j := by omega
          subst hij
          exact ⟨hj, h2⟩

/-- Counterexample for C3: a concrete two-point track where the second
query time is `0.76` s and the third is `1.52` s at 1 fps.  The code
truncates: it writes frames `0` (for query 0), skips query 1 (truncates to
`0`, a duplicate), and writes frame `1` for query 2 — whereas the claimed
`round` mapping gives frames `0, 1, 2` with no collapsing. -/
theorem gps_frame_mapping_round_counterexample :
    extract_gps_based (fun _ _ => 1/1000)
        [((0:ℚ), (0:ℚ), (0:ℚ)), (0, 0, 19/10)] 1 (2/5) (fun _ => true) =
      .ok [(0, 0), (2, 1)] ∧
    gpsQueryTimes (fun _ _ => 1/1000)
        [((0:ℚ), (0:ℚ), (0:ℚ)), (0, 0, 19/10)] (2/5) = [0, 19/25, 38/25] ∧
    pyround (1 * (19/25 - 0)) = 1 ∧
    pyround (1 * (38/25 - 0)) = 2 := by
  have hc : ⌈(5:ℚ)/2⌉ = 3 := by norm_num [Int.ceil_eq_iff]
  have h3 : (3:ℤ).toNat = 3 := rfl
  have hq : gpsQueryTimes (fun _ _ => 1/1000)
      [((0:ℚ), (0:ℚ), (0:ℚ)), (0, 0, 19/10)] (2/5) = [0, 19/25, 38/25] := by
    norm_num [gpsQueryTimes, gpsQueryDistances, gpsTotalDistance, cumDists,
      cumDistsAux, npArange, latlon, ptime, npInterp, npInterpAux, hc,
      h3, List.range_succ, Function.comp]
  refine ⟨?_, hq, ?_, ?_⟩
  · simp only [extract_gps_based, hq, List.headD_cons]
    rw [if_neg (by norm_num)]
    have e0 : pyint (0:ℚ) = 0 := by norm_num [pyint]
    have e1 : pyint ((19:ℚ)/25) = 0 := by norm_num [pyint, Int.floor_eq_iff]
    have e2 : pyint ((38:ℚ)/25) = 1 := by norm_num [pyint, Int.floor_eq_iff]
    simp [gpsFrameLoop, e0, e1, e2]
  · norm_num [pyround, Int.floor_eq_iff]
  · norm_num [pyround, Int.floor_eq_iff]

/-- Witness for C3 (amended): the amended theorem applied to the same
concrete track; the written frame numbers `[0, 1]` are strictly
increasing. -/
theorem gps_frame_mapping_truncation_witness :
    (∀ a b : ℚ × ℚ, (0:ℚ) ≤ (fun _ _ => 1/1000 : ℚ × ℚ → ℚ × ℚ → ℚ) a b) ∧
    (([((0:ℚ), (0:ℚ), (0:ℚ)), (0, 0, 19/10)].map ptime).Chain' (· ≤ ·)) ∧
    (0 : ℚ) < 2/5 ∧
    ([((0:ℕ), (0:ℤ)), (2, 1)].Pairwise (fun a b => a.2 < b.2) ∧
      ∀ p ∈ [((0:ℕ), (0:ℤ)), (2, 1)],
        ∃ hp : p.1 < (gpsQueryTimes (fun _ _ => 1/1000)
            [((0:ℚ), (0:ℚ), (0:ℚ)), (0, 0, 19/10)] (2/5)).length,
          p.2 = pyint (1 * ((gpsQueryTimes (fun _ _ => 1/1000)
              [((0:ℚ), (0:ℚ), (0:ℚ)), (0, 0, 19/10)] (2/5)).get ⟨p.1, hp⟩ -
            (gpsQueryTimes (fun _ _ => 1/1000)
              [((0:ℚ), (0:ℚ), (0:ℚ)), (0, 0, 19/10)] (2/5)).headD 0))) := by
  have hext : extract_gps_based (fun _ _ => 1/1000)
      [((0:ℚ), (0:ℚ), (0:ℚ)), (0, 0, 19/10)] 1 (2/5) (fun _ => true) =
        .ok [(0, 0), (2, 1)] := by
    have hc : ⌈(5:ℚ)/2⌉ = 3 := by norm_num [Int.ceil_eq_iff]
    have h3 : (3:ℤ).toNat = 3 := rfl
    have hq : gpsQueryTimes (fun _ _ => 1/1000)
        [((0:ℚ), (0:ℚ), (0:ℚ)), (0, 0, 19/10)] (2/5) = [0, 19/25, 38/25] := by
      norm_num [gpsQueryTimes, gpsQueryDistances, gpsTotalDistance, cumDists,
        cumDistsAux, npArange, latlon, ptime, npInterp, npInterpAux, hc,
        h3, List.range_succ, Function.comp]
    simp only [extract_gps_based, hq, List.headD_cons]
    rw [if_neg (by norm_num)]
    have e0 : pyint (0:ℚ) = 0 := by norm_num [pyint]
    have e1 : pyint ((19:ℚ)/25) = 0 := by norm_num [pyint, Int.floor_eq_iff]
    have e2 : pyint ((38:ℚ)/25) = 1 := by norm_num [pyint, Int.floor_eq_iff]
    simp [gpsFrameLoop, e0, e1, e2]
  exact ⟨fun a b => by norm_num, by norm_num [ptime], by norm_num,
    gps_frame_mapping_truncation (fun _ _ => 1/1000)
      [((0:ℚ), (0:ℚ), (0:ℚ)), (0, 0, 19/10)] 1 (2/5) (fun _ => true)
      [(0, 0), (2, 1)] (fun a b => by norm_num) (by norm_num [ptime])
      (by norm_num) hext⟩

/-! ## Histogram-based extractor (`src/logic/histogram_extractor.py`)

A frame is its grayscale raster, flattened to the multiset of 8-bit pixel
intensities (`cv2.cvtColor(..., COLOR_BGR2GRAY)` is a deterministic
external pixel map, so quantifying over grayscale frames covers every
video).  `cv2.calcHist([gray],[0],None,[256],[0,256])` counts pixels per
intensity bin; `cv2.compareHist(..., HISTCMP_BHATTACHARYYA)` is
`sqrt(max(1 - s12 / sqrt(s1*s2), 0))` with `s12 = Σ sqrt(h1ᵢ·h2ᵢ)`,
`s1 = Σ h1ᵢ`, `s2 = Σ h2ᵢ` (OpenCV guards a near-zero `s1*s2` by using
factor 1, which agrees with Lean's division-by-zero convention here). -/

/-- 256-bin grayscale intensity histogram of a frame (float counts). -/
noncomputable def calcHist256 (pix : List ℕ) : List ℝ :=
  (List.range 256).map (fun v => (pix.count v : ℝ))

/-- OpenCV `HISTCMP_BHATTACHARYYA` histogram distance. -/
noncomputable def bhattacharyyaDist (h1 h2 : List ℝ) : ℝ :=
  Real.sqrt (max (1 - ((h1.zip h2).map (fun p => Real.sqrt (p.1 * p.2))).sum /
    Real.sqrt (h1.sum * h2.sum)) 0)

/-- `fps` with the fallback of 25 for non-positive metadata
(histogram_extractor.py lines 28–30). -/
noncomputable def fpsEff (fps : ℝ) : ℝ := if fps ≤ 0 then 25 else fps

/-- `min_frame_gap = max(1, ceil(target_distance_m / distance_per_frame))`
with `distance_per_frame = (speed_kph * 1000 / 3600) / fps`
(histogram_extractor.py lines 33–35). -/
noncomputable def histMinGap (target speed fps : ℝ) : ℤ :=
  max 1 ⌈target / (speed * 1000 / 3600 / fpsEff fps)⌉

/-- Scan loop (histogram_extractor.py lines 49–68): each subsequent frame's
histogram is compared to the reference histogram of the last selected
frame; the frame index is emitted iff the Bhattacharyya distance exceeds
the threshold AND the counter is at least `min_frame_gap` past the last
selection; only then do the reference histogram and `last_keyframe_idx`
update. -/
noncomputable def histScan (threshold : ℝ) (gap : ℤ) :
    List (List ℕ) → List ℝ → ℕ → ℕ → List ℕ
  | [], _, _, _ => []
  | f :: rest, prevHist, frameCounter, lastKey =>
      let currHist := calcHist256 f
      if bhattacharyyaDist prevHist currHist > threshold ∧
          (frameCounter : ℤ) - (lastKey : ℤ) ≥ gap then
        frameCounter :: histScan threshold gap rest currHist (frameCounter + 1)
          frameCounter
      else histScan threshold gap rest prevHist (frameCounter + 1) lastKey

/-- `extract_histogram_based` (histogram_extractor.py lines 7–71): the
first frame read is the initial reference (never emitted); an unreadable
video errors; the scan emits frame indices counted from 0 at the second
physical frame, exactly as `frame_counter` does in the source.  The saved
file names number keyframes consecutively; the emitted indices identify
which frames are saved. -/
noncomputable def extract_histogram_based (frames : List (List ℕ))
    (fps target speed threshold : ℝ) : Except String (List ℕ) :=
  match frames with
  | [] => .error "Error: Cannot read video file"
  | f0 :: rest =>
      .ok (histScan threshold (histMinGap target speed fps) rest
        (calcHist256 f0) 0 0)

/-- The Bhattacharyya distance never exceeds 1. -/
theorem bhattacharyyaDist_le_one (h1 h2 : List ℝ) : bhattacharyyaDist h1 h2 ≤ 1 := by
  unfold bhattacharyyaDist
  have hs12 : 0 ≤ ((h1.zip h2).map (fun p => Real.sqrt (p.1 * p.2))).sum :=
    List.sum_nonneg (by
      intro x hx
      obtain ⟨p, _, rfl⟩ := List.mem_map.mp hx
      exact Real.sqrt_nonneg _)
  have hx : 0 ≤ ((h1.zip h2).map (fun p => Real.sqrt (p.1 * p.2))).sum /
      Real.sqrt (h1.sum * h2.sum) :=
    div_nonneg hs12 (Real.sqrt_nonneg _)
  exact Real.sqrt_le_one.mpr (max_le (by linarith) zero_le_one)

/-- The minimum frame gap is at least 1. -/
theorem histMinGap_pos (target speed fps : ℝ) : 1 ≤ histMinGap target speed fps :=
  le_max_left _ _

/-- The histogram of a single-pixel frame is an indicator column. -/
theorem calcHist256_single (p : ℕ) :
    calcHist256 [p] = (List.range 256).map (fun v => if v = p then (1:ℝ) else 0) := by
  unfold calcHist256
  refine List.map_congr_left ?_
  intro v _
  by_cases h : v = p
  · simp [h]
  · simp [List.count_cons, List.count_nil, h]

/-- Summing an indicator column over `range n`. -/
theorem sum_range_indicator (p n : ℕ) :
    ((List.range n).map (fun v => if v = p then (1:ℝ) else 0)).sum =
      if p < n then 1 else 0 := by
  induction n with
  | zero => simp
  | succ n ih =>
      rw [List.range_succ, List.map_append, List.sum_append, ih]
      by_cases h1 : p < n
      · have h2 : n ≠ p := by omega
        have h3 : p < n + 1 := by omega
        simp [h1, h2, h3]
      · by_cases h2 : p = n
        · subst h2
          simp [h1, Nat.lt_succ_self]
        · have h3 : ¬ p < n + 1 := by omega
          have h4 : n ≠ p := by omega
          simp [h1, h3, h4]

/-- Distinct single-pixel frames have Bhattacharyya distance exactly 1. -/
theorem bhattacharyyaDist_single_ne (p q : ℕ) (hp : p < 256) (hq : q < 256)
    (hne : p ≠ q) :
    bhattacharyyaDist (calcHist256 [p]) (calcHist256 [q]) = 1 := by
  unfold bhattacharyyaDist
  rw [calcHist256_single p, calcHist256_single q, List.zip_map']
  have hz : ((List.range 256).map (fun v =>
      ((if v = p then (1:ℝ) else 0), (if v = q then (1:ℝ) else 0)))).map
        (fun pr => Real.sqrt (pr.1 * pr.2)) =
      (List.range 256).map (fun _ => (0:ℝ)) := by
    rw [List.map_map]
    refine List.map_congr_left ?_
    intro v _
    by_cases h1 : v = p
    · have h2 : ¬ v = q := by rw [h1]; exact hne
      simp [Function.comp, h1, h2, hne]
    · simp [Function.comp, h1]
  rw [hz]
  have hsum0 : ((List.range 256).map (fun _ => (0:ℝ))).sum = 0 :=
    List.sum_eq_zero (by
      intro x hx
      obtain ⟨_, _, rfl⟩ := List.mem_map.mp hx
      rfl)
  rw [hsum0, zero_div]
  norm_num

/-- A single-pixel frame has Bhattacharyya distance 0 to itself. -/
theorem bhattacharyyaDist_single_self (p : ℕ) (hp : p < 256) :
    bhattacharyyaDist (calcHist256 [p]) (calcHist256 [p]) = 0 := by
  unfold bhattacharyyaDist
  rw [calcHist256_single p, List.zip_map']
  have hz : ((List.range 256).map (fun v =>
      ((if v = p then (1:ℝ) else 0), (if v = p then (1:ℝ) else 0)))).map
        (fun pr => Real.sqrt (pr.1 * pr.2)) =
      (List.range 256).map (fun v => if v = p then (1:ℝ) else 0) := by
    rw [List.map_map]
    refine List.map_congr_left ?_
    intro v _
    by_cases h1 : v = p
    · simp [Function.comp, h1]
    · simp [Function.comp, h1]
  rw [hz]
  simp only [sum_range_indicator, if_pos hp]
  norm_num

/-- Unfolding steps for the scan loop (the selection condition made
explicit). -/
theorem histScan_cons (threshold : ℝ) (gap : ℤ) (f : List ℕ)
    (rest : List (List ℕ)) (prevHist : List ℝ) (c l : ℕ) :
    histScan threshold gap (f :: rest) prevHist c l =
      if bhattacharyyaDist prevHist (calcHist256 f) > threshold ∧
          (c : ℤ) - (l : ℤ) ≥ gap then
        c :: histScan threshold gap rest (calcHist256 f) (c + 1) c
      else histScan threshold gap rest prevHist (c + 1) l := rfl

/-- Selected indices keep at least `gap` apart (in scan order) and respect
the bounds from the scan state. -/
theorem histScan_gap_invariant (threshold : ℝ) (gap : ℤ) (hgap : 0 ≤ gap) :
    ∀ (fs : List (List ℕ)) (ref : List ℝ) (c l : ℕ),
      (histScan threshold gap fs ref c l).Pairwise
        (fun (a b : ℕ) => (a : ℤ) + gap ≤ (b : ℤ)) ∧
      (∀ x ∈ histScan threshold gap fs ref c l,
        ((l : ℤ) + gap ≤ (x : ℤ) ∧ c ≤ x))
  | [], _, _, _ => by simp [histScan]
  | f :: rest, ref, c, l => by
      rw [histScan_cons]
      split_ifs with hcond
      · obtain ⟨hsel, hgapc⟩ := hcond
        obtain ⟨ihp, ihb⟩ :=
          histScan_gap_invariant threshold gap hgap rest (calcHist256 f) (c + 1) c
        constructor
        · rw [List.pairwise_cons]
          exact ⟨fun x hx => (ihb x hx).1, ihp⟩
        · intro x hx
          rcases List.mem_cons.mp hx with rfl | hx
          · exact ⟨by omega, le_refl _⟩
          · obtain ⟨hb1, hb2⟩ := ihb x hx
            exact ⟨by omega, by omega⟩
      · obtain ⟨ihp, ihb⟩ :=
          histScan_gap_invariant threshold gap hgap rest ref (c + 1) l
        refine ⟨ihp, ?_⟩
        intro x hx
        obtain ⟨hb1, hb2⟩ := ihb x hx
        exact ⟨hb1, by omega⟩

/-- C2: for every video, every threshold and every parameter setting, the
histogram sampler never emits two frame indices whose difference is
smaller than `min_frame_gap = max(1, ceil(target_distance_m /
(speed_mps / fps)))`. -/
theorem hist_min_gap_never_violated (frames : List (List ℕ))
    (fps target speed threshold : ℝ) (sel : List ℕ)
    (h : extract_histogram_based frames fps target speed threshold = .ok sel) :
    ∀ i ∈ sel, ∀ j ∈ sel, i ≠ j →
      histMinGap target speed fps ≤ |(i : ℤ) - (j : ℤ)| := by
  cases frames with
  | nil => simp [extract_histogram_based] at h
  | cons f0 rest =>
      simp only [extract_histogram_based, Except.ok.injEq] at h
      have hgap : (0 : ℤ) ≤ histMinGap target speed fps :=
        le_trans zero_le_one (histMinGap_pos _ _ _)
      obtain ⟨hpw, _⟩ := histScan_gap_invariant threshold
        (histMinGap target speed fps) hgap rest (calcHist256 f0) 0 0
      rw [h] at hpw
      have hsym : Symmetric (fun a b : ℕ =>
          histMinGap target speed fps ≤ |(a : ℤ) - (b : ℤ)|) := by
        intro a b hab
        rwa [abs_sub_comm]
      have hpw2 : sel.Pairwise (fun a b : ℕ =>
          histMinGap target speed fps ≤ |(a : ℤ) - (b : ℤ)|) :=
        hpw.imp (fun {a b} hab => by
          rw [abs_sub_comm]
          rw [abs_of_nonneg (by omega)]
          omega)
      intro i hi j hj hne
      exact hpw2.forall hsym hi hj hne

/-- With a threshold at or above 1 no frame is ever selected: the
Bhattacharyya distance cannot exceed 1. -/
theorem histScan_none_of_one_le (threshold : ℝ) (gap : ℤ) (hθ : 1 ≤ threshold) :
    ∀ (fs : List (List ℕ)) (ref : List ℝ) (c l : ℕ),
      histScan threshold gap fs ref c l = []
  | [], _, _, _ => rfl
  | f :: rest, ref, c, l => by
      rw [histScan_cons]
      rw [if_neg]
      · exact histScan_none_of_one_le threshold gap hθ rest ref (c + 1) l
      · rintro ⟨hsel, -⟩
        exact absurd hsel
          (not_lt.mpr (le_trans (bhattacharyyaDist_le_one _ _) hθ))

/-- With threshold 0 and all comparisons strictly positive, the scan
selects exactly the indices `l + gap, l + 2·gap, …` among the frames it
sees: selection fires the moment the gap constraint is met. -/
theorem histScan_zero_threshold (gap : ℤ) (g : ℕ) (hg : 1 ≤ g)
    (hgap : gap = (g : ℤ)) :
    ∀ (fs : List (List ℕ)) (ref : List ℝ) (c l : ℕ),
      c ≤ l + g → l ≤ c →
      (∀ f ∈ fs, 0 < bhattacharyyaDist ref (calcHist256 f)) →
      fs.Pairwise (fun a b =>
        0 < bhattacharyyaDist (calcHist256 a) (calcHist256 b)) →
      histScan 0 gap fs ref c l =
        (List.range ((c + fs.length - l - 1) / g)).map (fun j => l + (j + 1) * g)
  | [], ref, c, l, hcl, hlc, _, _ => by
      have hz : (c - l - 1) / g = 0 := Nat.div_eq_of_lt (by omega)
      simp [histScan, hz]
  | f :: rest, ref, c, l, hcl, hlc, href, hpair => by
      rw [histScan_cons]
      rw [List.pairwise_cons] at hpair
      split_ifs with hcond
      · obtain ⟨-, hgapc⟩ := hcond
        have hceq : c = l + g := by omega
        have ihs := histScan_zero_threshold gap g hg hgap rest (calcHist256 f)
          (c + 1) c (by omega) (by omega) (fun r hr => hpair.1 r hr) hpair.2
        rw [ihs]
        have hk1 : (c + 1 + rest.length - c - 1) / g = rest.length / g := by
          congr 1
          omega
        have hk2 : (c + (f :: rest).length - l - 1) / g = rest.length / g + 1 := by
          rw [List.length_cons, hceq]
          have harg : l + g + (rest.length + 1) - l - 1 = rest.length + g := by omega
          rw [harg]
          exact Nat.add_div_right _ (by omega)
        rw [hk1, hk2, List.range_succ_eq_map, List.map_cons, List.map_map]
        refine congrArg₂ _ (by rw [hceq]; ring) ?_
        refine List.map_congr_left ?_
        intro j _
        simp only [Function.comp]
        rw [hceq, Nat.succ_eq_add_one]
        ring
      · have hclt : c < l + g := by
          rcases lt_or_ge ((c : ℤ) - (l : ℤ)) gap with hlt | hge
          · omega
          · exact absurd ⟨href f (List.mem_cons_self _ _), hge⟩ hcond
        have ihs := histScan_zero_threshold gap g hg hgap rest ref (c + 1) l
          (by omega) (by omega) (fun r hr => href r (List.mem_cons_of_mem _ hr))
          hpair.2
        rw [ihs]
        have harg : c + 1 + rest.length - l - 1 = c + (f :: rest).length - l - 1 := by
          simp only [List.length_cons]
          omega
        rw [harg]

/-- Distinct single-pixel frames are strictly further apart than 0. -/
theorem bhattacharyyaDist_single_pos (p q : ℕ) (hp : p < 256) (hq : q < 256)
    (hne : p ≠ q) :
    0 < bhattacharyyaDist (calcHist256 [p]) (calcHist256 [q]) := by
  rw [bhattacharyyaDist_single_ne p q hp hq hne]
  norm_num

/-- Witness for C2: a four-frame video of distinct single-pixel frames at
parameters giving `min_frame_gap = 1`; the sampler selects indices 1 and 2
and the theorem applies to that pair. -/
theorem hist_min_gap_never_violated_witness :
    extract_histogram_based [[0], [1], [2], [3]] 1 1 (18/5) 0 = .ok [1, 2] ∧
    (1 : ℕ) ∈ [1, 2] ∧ (2 : ℕ) ∈ ([1, 2] : List ℕ) ∧ (1 : ℕ) ≠ 2 ∧
    histMinGap 1 (18/5) 1 ≤ |(1 : ℤ) - (2 : ℤ)| := by
  have hgap : histMinGap 1 (18/5) 1 = 1 := by
    norm_num [histMinGap, fpsEff]
  have hb02 : bhattacharyyaDist (calcHist256 [0]) (calcHist256 [2]) = 1 :=
    bhattacharyyaDist_single_ne 0 2 (by norm_num) (by norm_num) (by norm_num)
  have hb23 : bhattacharyyaDist (calcHist256 [2]) (calcHist256 [3]) = 1 :=
    bhattacharyyaDist_single_ne 2 3 (by norm_num) (by norm_num) (by norm_num)
  have hsel : extract_histogram_based [[0], [1], [2], [3]] 1 1 (18/5) 0 =
      .ok [1, 2] := by
    simp only [extract_histogram_based, hgap]
    rw [histScan_cons, if_neg (by rintro ⟨-, hb⟩; omega)]
    rw [histScan_cons, if_pos ⟨by rw [hb02]; norm_num, by omega⟩]
    rw [histScan_cons, if_pos ⟨by rw [hb23]; norm_num, by omega⟩]
    rfl
  exact ⟨hsel, by norm_num, by norm_num, by norm_num,
    hist_min_gap_never_violated _ 1 1 (18/5) 0 [1, 2] hsel 1 (by norm_num) 2
      (by norm_num) (by norm_num)⟩

/-- Counterexample for C8: three identical frames, threshold 0 and
`min_frame_gap = 1`.  Scan index 1 is beyond the minimum gap (1 − 0 ≥ 1),
yet nothing at all is emitted, because identical histograms have
Bhattacharyya distance 0 and the selection condition is strict
(`diff > 0`). -/
theorem hist_zero_threshold_counterexample :
    extract_histogram_based [[0], [0], [0]] 1 1 (18/5) 0 = .ok [] ∧
    histMinGap 1 (18/5) 1 = 1 := by
  have hgap : histMinGap 1 (18/5) 1 = 1 := by
    norm_num [histMinGap, fpsEff]
  have hb : bhattacharyyaDist (calcHist256 [0]) (calcHist256 [0]) = 0 :=
    bhattacharyyaDist_single_self 0 (by norm_num)
  refine ⟨?_, hgap⟩
  simp only [extract_histogram_based, hgap]
  rw [histScan_cons, if_neg (by rintro ⟨hs, -⟩; rw [hb] at hs; exact lt_irrefl _ hs)]
  rw [histScan_cons, if_neg (by rintro ⟨hs, -⟩; rw [hb] at hs; exact lt_irrefl _ hs)]
  rfl

/-- C8 (amended): with `diff_threshold ≥ 1` the histogram sampler emits no
frame at all (the Bhattacharyya distance never exceeds 1); with
`diff_threshold = 0` it emits every frame beyond the minimum gap PROVIDED
the frames' histograms are pairwise at positive Bhattacharyya distance —
the emitted indices are then exactly `gap, 2·gap, 3·gap, …`.  A frame
whose histogram equals the reference is not emitted even beyond the gap. -/
theorem hist_threshold_extremes_amended (f0 : List ℕ) (rest : List (List ℕ))
    (fps target speed threshold : ℝ) :
    (1 ≤ threshold →
      extract_histogram_based (f0 :: rest) fps target speed threshold = .ok []) ∧
    (threshold = 0 →
      (f0 :: rest).Pairwise (fun a b =>
        0 < bhattacharyyaDist (calcHist256 a) (calcHist256 b)) →
      extract_histogram_based (f0 :: rest) fps target speed threshold =
        .ok ((List.range
            ((rest.length - 1) / (histMinGap target speed fps).toNat)).map
          (fun j => (j + 1) * (histMinGap target speed fps).toNat))) := by
  constructor
  · intro hθ
    simp only [extract_histogram_based, Except.ok.injEq]
    exact histScan_none_of_one_le threshold _ hθ rest (calcHist256 f0) 0 0
  · intro hθ hpair
    subst hθ
    simp only [extract_histogram_based, Except.ok.injEq]
    have hmg := histMinGap_pos target speed fps
    have hg : 1 ≤ (histMinGap target speed fps).toNat := by omega
    have hgap : histMinGap target speed fps =
        ((histMinGap target speed fps).toNat : ℤ) := by omega
    rw [List.pairwise_cons] at hpair
    have hrw := histScan_zero_threshold (histMinGap target speed fps)
      (histMinGap target speed fps).toNat hg hgap rest (calcHist256 f0) 0 0
      (by omega) (by omega) (fun r hr => hpair.1 r hr) hpair.2
    rw [hrw]
    simp

/-- Witness for C8 (amended): part 1 at threshold 1 on a two-frame video;
part 2 at threshold 0 on four pairwise-distinct single-pixel frames, where
the emitted indices are exactly the multiples of the gap. -/
theorem hist_threshold_extremes_amended_witness :
    ((1 : ℝ) ≤ 1 ∧
      extract_histogram_based [[0], [1]] 1 1 (18/5) 1 = .ok []) ∧
    (([[0], [1], [2], [3]] : List (List ℕ)).Pairwise (fun a b =>
        0 < bhattacharyyaDist (calcHist256 a) (calcHist256 b)) ∧
      extract_histogram_based [[0], [1], [2], [3]] 1 1 (18/5) 0 =
        .ok ((List.range
            ((([[1], [2], [3]] : List (List ℕ)).length - 1) /
              (histMinGap 1 (18/5) 1).toNat)).map
          (fun j => (j + 1) * (histMinGap 1 (18/5) 1).toNat))) := by
  have hpw : ([[0], [1], [2], [3]] : List (List ℕ)).Pairwise (fun a b =>
      0 < bhattacharyyaDist (calcHist256 a) (calcHist256 b)) := by
    refine List.Pairwise.cons ?_ (List.Pairwise.cons ?_ (List.Pairwise.cons ?_
      (List.pairwise_singleton _ _)))
    · intro b hb
      fin_cases hb
      · exact bhattacharyyaDist_single_pos 0 1 (by norm_num) (by norm_num) (by norm_num)
      · exact bhattacharyyaDist_single_pos 0 2 (by norm_num) (by norm_num) (by norm_num)
      · exact bhattacharyyaDist_single_pos 0 3 (by norm_num) (by norm_num) (by norm_num)
    · intro b hb
      fin_cases hb
      · exact bhattacharyyaDist_single_pos 1 2 (by norm_num) (by norm_num) (by norm_num)
      · exact bhattacharyyaDist_single_pos 1 3 (by norm_num) (by norm_num) (by norm_num)
    · intro b hb
      fin_cases hb
      exact bhattacharyyaDist_single_pos 2 3 (by norm_num) (by norm_num) (by norm_num)
  refine ⟨⟨le_refl 1, ?_⟩, hpw, ?_⟩
  · exact (hist_threshold_extremes_amended [0] [[1]] 1 1 (18/5) 1).1 (le_refl 1)
  · exact (hist_threshold_extremes_amended [0] [[1], [2], [3]] 1 1 (18/5) 0).2 rfl hpw

/-! ## Redaction pipeline (`src/logic/anonymizer.py`, `src/main.py`)

File names in a folder are distinct ordered keys, modelled as `ℕ`
(`sorted(glob(...))[0]` is the name-minimal entry).  An image is its pixel
dimensions plus abstract decoded content `α`; `cv2.imread` succeeding is
assumed (a failed decode is an external per-file skip outside the model).
The detector (`ultralytics` YOLO with `save_txt` plus the `conf`
threshold) is the parameter `det`: for each image, the list of normalized
center-format `(cx, cy, w, h)` detections above threshold, in label-file
line order — a label file exists exactly for the images with a non-empty
list.  `cv2.GaussianBlur` on a region is the parameter `blur`; OpenCV
(≥ 4.2, as required by ultralytics) asserts `!_src.empty()`, so an empty
ROI raises `cv2.error`, which the per-image `except: continue` turns into
a skip. -/

/-- An image: width and height from `img.shape[:2]` plus abstract decoded
content. -/
structure PImg (α : Type) where
  w : ℕ
  h : ℕ
  data : α
deriving DecidableEq

/-- `yolo_to_voc` (anonymizer.py lines 6–23): normalized center format to
pixel corner format `(x_min, y_min, x_max, y_max)` for an image of size
`(img_w, img_h)`. -/
def yolo_to_voc (bbox : ℚ × ℚ × ℚ × ℚ) (size : ℚ × ℚ) : ℚ × ℚ × ℚ × ℚ :=
  let xc := bbox.1 * size.1
  let yc := bbox.2.1 * size.2
  let bw := bbox.2.2.1 * size.1
  let bh := bbox.2.2.2 * size.2
  (xc - bw / 2, yc - bh / 2, xc + bw / 2, yc + bh / 2)

/-- Python slice index normalisation: a negative index counts from the
end, then the result is clamped to `[0, n]`. -/
def pySliceIdx (i : ℤ) (n : ℕ) : ℕ :=
  (max 0 (min (if i < 0 then i + n else i) n)).toNat

/-- The ROI `image[y1:y2, x1:x2]` of an image with the given width and
height is non-empty. -/
def nonemptyClip (w h : ℕ) (r : ℤ × ℤ × ℤ × ℤ) : Prop :=
  pySliceIdx r.2.1 h < pySliceIdx r.2.2.2 h ∧
  pySliceIdx r.1 w < pySliceIdx r.2.2.1 w

instance (w h : ℕ) (r : ℤ × ℤ × ℤ × ℤ) : Decidable (nonemptyClip w h r) := by
  unfold nonemptyClip
  infer_instance

/-- `anonymize` (anonymizer.py lines 25–35): blur each region in turn on
the same decoded image.  The coordinates are already integers at the call
site (line 167), so the `round` calls there are identity.  An empty ROI
makes `cv2.GaussianBlur` raise, which aborts the whole call — modelled as
`none`. -/
def anonymize (blur : α → ℕ × ℕ × ℕ × ℕ → α) :
    PImg α → List (ℤ × ℤ × ℤ × ℤ) → Option (PImg α)
  | img, [] => some img
  | img, r :: rest =>
      let region := (pySliceIdx r.1 img.w, pySliceIdx r.2.1 img.h,
        pySliceIdx r.2.2.1 img.w, pySliceIdx r.2.2.2 img.h)
      if nonemptyClip img.w img.h r then
        anonymize blur { img with data := blur img.data region } rest
      else none

/-- `sorted(glob(input_folder + "/*"))[0]`: the name-minimal input entry. -/
def minByName {α : Type} : List (ℕ × PImg α) → Option (ℕ × PImg α)
  | [] => none
  | x :: l => some ((minByName l).elim x (fun y => if x.1 ≤ y.1 then x else y))

/-- `(width_output_images, height_output_images)` (anonymizer.py lines
92–100): the dimensions of the first image of the sorted folder listing,
used for every conversion in the run. -/
def refDims {α : Type} (l : List (ℕ × PImg α)) : ℚ × ℚ :=
  (minByName l).elim (0, 0) (fun x => ((x.2.w : ℚ), (x.2.h : ℚ)))

/-- The sidecar record for one image (anonymizer.py lines 109–128): absent
when the detector found nothing, else the detections converted with
`yolo_to_voc` at the supplied reference dimensions, in line order. -/
def annF {α : Type} (det : PImg α → List (ℚ × ℚ × ℚ × ℚ)) (dims : ℚ × ℚ)
    (p : ℕ × PImg α) : Option (ℕ × List (ℚ × ℚ × ℚ × ℚ)) :=
  match det p.2 with
  | [] => none
  | ds => some (p.1, ds.map (fun b => yolo_to_voc b dims))

/-- All sidecar records of a run (`annot_txt`), converted at the first
image's dimensions. -/
def annotRecords {α : Type} (det : PImg α → List (ℚ × ℚ × ℚ × ℚ))
    (inputs : List (ℕ × PImg α)) : List (ℕ × List (ℚ × ℚ × ℚ × ℚ)) :=
  inputs.filterMap (annF det (refDims inputs))

/-- `int(round(...))` of the four stored coordinates
(anonymizer.py line 167). -/
def roundBox (b : ℚ × ℚ × ℚ × ℚ) : ℤ × ℤ × ℤ × ℤ :=
  (pyround b.1, pyround b.2.1, pyround b.2.2.1, pyround b.2.2.2)

/-- Per-image processing (anonymizer.py lines 144–184): with no sidecar
record the original is written through; with a record the parsed, rounded
boxes are blurred and the result written; an exception (empty ROI in the
blur) is caught by `except: continue`, skipping the image. -/
def processImage {α : Type} (blur : α → ℕ × ℕ × ℕ × ℕ → α)
    (annots : List (ℕ × List (ℚ × ℚ × ℚ × ℚ))) (p : ℕ × PImg α) :
    Option (ℕ × PImg α) :=
  match annots.lookup p.1 with
  | none => some p
  | some bs =>
      let rounded := bs.map roundBox
      if rounded.isEmpty then some p
      else
        match anonymize blur p.2 rounded with
        | some im2 => some (p.1, im2)
        | none => none

/-- The observable outcome of a redaction run: written images, sidecar
records, processed count and the returned error. -/
structure AnonResult (α : Type) where
  outputs : List (ℕ × PImg α)
  annots : List (ℕ × List (ℚ × ℚ × ℚ × ℚ))
  count : ℕ
  error : Option String
deriving DecidableEq

/-- `anonymize_images` (anonymizer.py lines 37–187): an empty folder
errors; otherwise detection runs, the sidecar records are written at the
first image's dimensions, and each image is processed in listing order.
The count equals the number of written images (incremented exactly at each
write). -/
def anonymize_images {α : Type} (det : PImg α → List (ℚ × ℚ × ℚ × ℚ))
    (blur : α → ℕ × ℕ × ℕ × ℕ → α) (inputs : List (ℕ × PImg α)) :
    AnonResult α :=
  if inputs.isEmpty then
    ⟨[], [], 0, some "No images found in input folder"⟩
  else
    let annots := annotRecords det inputs
    let outs := inputs.filterMap (processImage blur annots)
    ⟨outs, annots, outs.length, none⟩

/-- `all_images[start_idx:end_idx]` batching (main.py lines 840–850):
`num_batches` ceiling-divided slices of size `BATCH_SIZE`. -/
def batchSlices {β : Type} (bs : ℕ) (l : List β) : List (List β) :=
  (List.range ((l.length + bs - 1) / bs)).map
    (fun k => (l.drop (k * bs)).take bs)

/-- Sequential batch driver (main.py lines 845–886): each batch is
processed into the shared output folder; a batch error aborts the
remaining batches. -/
def runBatches {α : Type} (det : PImg α → List (ℚ × ℚ × ℚ × ℚ))
    (blur : α → ℕ × ℕ × ℕ × ℕ → α) :
    List (List (ℕ × PImg α)) → AnonResult α
  | [] => ⟨[], [], 0, none⟩
  | b :: rest =>
      let r := anonymize_images det blur b
      match r.error with
      | some e => ⟨r.outputs, r.annots, r.count, some e⟩
      | none =>
          let r2 := runBatches det blur rest
          ⟨r.outputs ++ r2.outputs, r.annots ++ r2.annots, r.count + r2.count,
            r2.error⟩

/-- `process_anonymization` (main.py lines 824–906): folders above
`BATCH_SIZE = 500` images are processed in fixed batches, smaller folders
in a single call. -/
def process_anonymization {α : Type} (det : PImg α → List (ℚ × ℚ × ℚ × ℚ))
    (blur : α → ℕ × ℕ × ℕ × ℕ → α) (inputs : List (ℕ × PImg α)) :
    AnonResult α :=
  if 500 < inputs.length then runBatches det blur (batchSlices 500 inputs)
  else anonymize_images det blur inputs

/-- Pixel corner box to pixel center format (main.py lines 1604–1608):
`cx = (x1+x2)/2, cy = (y1+y2)/2, w = x2-x1, h = y2-y1`. -/
def cornerToCenter (b : ℚ × ℚ × ℚ × ℚ) : ℚ × ℚ × ℚ × ℚ :=
  ((b.1 + b.2.2.1) / 2, (b.2.1 + b.2.2.2) / 2, b.2.2.1 - b.1, b.2.2.2 - b.2.1)

/-- Pixel center format to the normalized YOLO record written by
`save_and_next_anno` (main.py lines 1655–1665). -/
def normalizeCenter (b : ℚ × ℚ × ℚ × ℚ) (wid hei : ℚ) : ℚ × ℚ × ℚ × ℚ :=
  (b.1 / wid, b.2.1 / hei, b.2.2.1 / wid, b.2.2.2 / hei)

/-- C6: for a normalized center-format box with components in `[0, 1]` and
positive image dimensions, converting to a pixel corner-format box
(`yolo_to_voc`) and back to normalized center format (corner→center, then
divide by the dimensions) reproduces the box exactly — in exact rational
arithmetic the round trip is the identity, hence certainly within
floating-point tolerance. -/
theorem box_roundtrip_exact (cx cy bw bh wid hei : ℚ)
    (hcx0 : 0 ≤ cx) (hcx1 : cx ≤ 1) (hcy0 : 0 ≤ cy) (hcy1 : cy ≤ 1)
    (hw0 : 0 ≤ bw) (hw1 : bw ≤ 1) (hh0 : 0 ≤ bh) (hh1 : bh ≤ 1)
    (hW : 0 < wid) (hH : 0 < hei) :
    normalizeCenter (cornerToCenter (yolo_to_voc (cx, cy, bw, bh) (wid, hei)))
      wid hei = (cx, cy, bw, bh) := by
  unfold normalizeCenter cornerToCenter yolo_to_voc
  simp only [Prod.mk.injEq]
  refine ⟨?_, ?_, ?_, ?_⟩ <;>
    · field_simp

/-- Witness for C6: the box `(1/2, 1/2, 1/2, 1/2)` on a 2×4 image. -/
theorem box_roundtrip_exact_witness :
    (0:ℚ) ≤ 1/2 ∧ (1/2:ℚ) ≤ 1 ∧ (0:ℚ) < 2 ∧ (0:ℚ) < 4 ∧
    normalizeCenter (cornerToCenter (yolo_to_voc
      ((1:ℚ)/2, (1:ℚ)/2, (1:ℚ)/2, (1:ℚ)/2) (2, 4))) 2 4 =
      ((1:ℚ)/2, (1:ℚ)/2, (1:ℚ)/2, (1:ℚ)/2) :=
  ⟨by norm_num, by norm_num, by norm_num, by norm_num,
    box_roundtrip_exact (1/2) (1/2) (1/2) (1/2) 2 4 (by norm_num) (by norm_num)
      (by norm_num) (by norm_num) (by norm_num) (by norm_num) (by norm_num)
      (by norm_num) (by norm_num) (by norm_num)⟩

/-- C9 (amended): every sidecar record produced by the pipeline holds the
image's detections converted with the dimensions of the FIRST
(alphabetically first) image of the folder — the same reference dimensions
for every image, not each image's own. -/
theorem annots_use_first_image_dims {α : Type}
    (det : PImg α → List (ℚ × ℚ × ℚ × ℚ)) (blur : α → ℕ × ℕ × ℕ × ℕ → α)
    (inputs : List (ℕ × PImg α)) :
    ∀ r ∈ (anonymize_images det blur inputs).annots,
      ∃ p, p ∈ inputs ∧ p.1 = r.1 ∧ det p.2 ≠ [] ∧
        r.2 = (det p.2).map (fun b => yolo_to_voc b (refDims inputs)) := by
  intro r hr
  by_cases he : inputs.isEmpty
  · simp [anonymize_images, he] at hr
  · simp only [anonymize_images, if_neg he] at hr
    obtain ⟨p, hp, hF⟩ := List.mem_filterMap.mp hr
    unfold annF at hF
    rcases hd : det p.2 with - | ⟨b, bs⟩
    · rw [hd] at hF
      simp at hF
    · rw [hd] at hF
      simp only [Option.some.injEq] at hF
      refine ⟨p, hp, ?_, by rw [hd]; simp, ?_⟩
      · rw [← hF]
      · rw [← hF, hd]

/-- A constant detector returning one centered half-size box. -/
def constHalfBox (im : PImg ℕ) : List (ℚ × ℚ × ℚ × ℚ) := [(1/2, 1/2, 1/2, 1/2)]

/-- A content-preserving stand-in for the Gaussian blur. -/
def idBlur (d : ℕ) (r : ℕ × ℕ × ℕ × ℕ) : ℕ := d

/-- Two readable images of different dimensions: 100×100 and 200×100. -/
def twoSizeInputs : List (ℕ × PImg ℕ) := [(0, ⟨100, 100, 0⟩), (1, ⟨200, 100, 0⟩)]

/-- Evaluation of the sidecar records on `twoSizeInputs`: both are
converted at the first image's 100×100 dimensions. -/
theorem annots_twoSizeInputs_eval :
    (anonymize_images constHalfBox idBlur twoSizeInputs).annots =
      [(0, [(25, 25, 75, 75)]), (1, [(25, 25, 75, 75)])] := by
  norm_num [anonymize_images, twoSizeInputs, annotRecords, annF, refDims,
    minByName, constHalfBox, yolo_to_voc, List.filterMap_cons]

/-- Counterexample for C9: on a folder whose second image is 200×100 while
the first is 100×100, the second image's box is converted with the FIRST
image's dimensions, `(25, 25, 75, 75)`, not with its own dimensions, which
would give `(50, 25, 150, 75)`. -/
theorem annot_dims_counterexample :
    (anonymize_images constHalfBox idBlur twoSizeInputs).annots =
      [(0, [(25, 25, 75, 75)]), (1, [(25, 25, 75, 75)])] ∧
    yolo_to_voc ((1:ℚ)/2, 1/2, 1/2, 1/2) (200, 100) = (50, 25, 150, 75) ∧
    ([((25:ℚ), (25:ℚ), (75:ℚ), (75:ℚ))] : List (ℚ × ℚ × ℚ × ℚ)) ≠
      [(50, 25, 150, 75)] :=
  ⟨annots_twoSizeInputs_eval, by norm_num [yolo_to_voc], by
    simp only [ne_eq, List.cons.injEq, Prod.mk.injEq]
    norm_num⟩

/-- Witness for C9 (amended): the record for image 1 of `twoSizeInputs` is
in the run's sidecar output, and the amended theorem produces the matching
source image and conversion at the first image's dimensions. -/
theorem annots_use_first_image_dims_witness :
    ((1 : ℕ), [((25:ℚ), (25:ℚ), (75:ℚ), (75:ℚ))]) ∈
      (anonymize_images constHalfBox idBlur twoSizeInputs).annots ∧
    ∃ p, p ∈ twoSizeInputs ∧
      p.1 = ((1 : ℕ), [((25:ℚ), (25:ℚ), (75:ℚ), (75:ℚ))]).1 ∧
      constHalfBox p.2 ≠ [] ∧
      ((1 : ℕ), [((25:ℚ), (25:ℚ), (75:ℚ), (75:ℚ))]).2 =
        (constHalfBox p.2).map (fun b => yolo_to_voc b (refDims twoSizeInputs)) := by
  have hmem : ((1 : ℕ), [((25:ℚ), (25:ℚ), (75:ℚ), (75:ℚ))]) ∈
      (anonymize_images constHalfBox idBlur twoSizeInputs).annots := by
    rw [annots_twoSizeInputs_eval]
    simp
  exact ⟨hmem, annots_use_first_image_dims constHalfBox idBlur twoSizeInputs _ hmem⟩

/-! ### Supporting facts about the per-image pipeline -/

/-- If every region clips to a non-empty ROI the blur fold succeeds and
preserves the image dimensions. -/
theorem anonymize_some_of_clips {α : Type} (blur : α → ℕ × ℕ × ℕ × ℕ → α) :
    ∀ (regions : List (ℤ × ℤ × ℤ × ℤ)) (img : PImg α),
      (∀ r ∈ regions, nonemptyClip img.w img.h r) →
      ∃ im2, anonymize blur img regions = some im2 ∧
        im2.w = img.w ∧ im2.h = img.h
  | [], img, _ => ⟨img, rfl, rfl, rfl⟩
  | r :: rest, img, hok => by
      have hr := hok r (List.mem_cons_self _ _)
      obtain ⟨im2, h1, h2, h3⟩ := anonymize_some_of_clips blur rest
        { img with data := blur img.data (pySliceIdx r.1 img.w,
            pySliceIdx r.2.1 img.h, pySliceIdx r.2.2.1 img.w,
            pySliceIdx r.2.2.2 img.h) }
        (fun r2 hr2 => hok r2 (List.mem_cons_of_mem _ hr2))
      refine ⟨im2, ?_, h2, h3⟩
      simp only [anonymize]
      rw [if_pos hr]
      exact h1

/-- If some region clips to an empty ROI the blur fold raises (returns
`none`), no matter where in the list the bad region sits. -/
theorem anonymize_none_of_bad {α : Type} (blur : α → ℕ × ℕ × ℕ × ℕ → α) :
    ∀ (regions : List (ℤ × ℤ × ℤ × ℤ)) (img : PImg α),
      (∃ r ∈ regions, ¬ nonemptyClip img.w img.h r) →
      anonymize blur img regions = none
  | [], img, h => absurd h (by simp)
  | r :: rest, img, h => by
      obtain ⟨r0, hr0, hbad⟩ := h
      simp only [anonymize]
      by_cases hr : nonemptyClip img.w img.h r
      · rw [if_pos hr]
        rcases List.mem_cons.mp hr0 with rfl | h0
        · exact absurd hr hbad
        · exact anonymize_none_of_bad blur rest _ ⟨r0, h0, hbad⟩
      · rw [if_neg hr]

/-- A sidecar record carries the name of the image it came from. -/
theorem annF_fst {α : Type} (det : PImg α → List (ℚ × ℚ × ℚ × ℚ))
    (dims : ℚ × ℚ) (p : ℕ × PImg α) (v : ℕ × List (ℚ × ℚ × ℚ × ℚ))
    (h : annF det dims p = some v) : v.1 = p.1 := by
  unfold annF at h
  rcases hd : det p.2 with - | ⟨b, bs⟩ <;> rw [hd] at h
  · simp at h
  · simp only [Option.some.injEq] at h
    rw [← h]

/-- Looking up a name that is not in the folder finds no record. -/
theorem lookup_annF_of_not_mem {α : Type}
    (det : PImg α → List (ℚ × ℚ × ℚ × ℚ)) (dims : ℚ × ℚ) :
    ∀ (l : List (ℕ × PImg α)) (n : ℕ), n ∉ l.map Prod.fst →
      (l.filterMap (annF det dims)).lookup n = none
  | [], _, _ => rfl
  | p :: l, n, hn => by
      simp only [List.map_cons, List.mem_cons] at hn
      push_neg at hn
      rw [List.filterMap_cons]
      cases hF : annF det dims p with
      | none => exact lookup_annF_of_not_mem det dims l n hn.2
      | some v =>
          obtain ⟨v1, v2⟩ := v
          have hv : v1 = p.1 := annF_fst det dims p (v1, v2) hF
          have hb : (n == v1) = false := beq_eq_false_iff_ne.mpr (hv ▸ hn.1)
          simp only [List.lookup, hb]
          exact lookup_annF_of_not_mem det dims l n hn.2

/-- With distinct names, an input's lookup in the sidecar records is its
own record. -/
theorem lookup_annF_self {α : Type}
    (det : PImg α → List (ℚ × ℚ × ℚ × ℚ)) (dims : ℚ × ℚ) :
    ∀ (l : List (ℕ × PImg α)), (l.map Prod.fst).Nodup → ∀ p ∈ l,
      (l.filterMap (annF det dims)).lookup p.1 =
        Option.map Prod.snd (annF det dims p)
  | [], _, p, hp => absurd hp (List.not_mem_nil p)
  | q :: l, hnd, p, hp => by
      rw [List.map_cons, List.nodup_cons] at hnd
      rw [List.filterMap_cons]
      rcases List.mem_cons.mp hp with rfl | hpl
      · cases hF : annF det dims p with
        | none =>
            rw [lookup_annF_of_not_mem det dims l p.1 hnd.1]
            rfl
        | some v =>
            obtain ⟨v1, v2⟩ := v
            have hv : v1 = p.1 := annF_fst det dims p (v1, v2) hF
            have hb : (p.1 == v1) = true := beq_iff_eq.mpr hv.symm
            simp only [List.lookup, hb, Option.map_some']
      · have hne : p.1 ≠ q.1 := by
          intro hc
          exact hnd.1 (hc ▸ List.mem_map_of_mem Prod.fst hpl)
        cases hF : annF det dims q with
        | none => exact lookup_annF_self det dims l hnd.2 p hpl
        | some v =>
            obtain ⟨v1, v2⟩ := v
            have hv : v1 = q.1 := annF_fst det dims q (v1, v2) hF
            have hb : (p.1 == v1) = false := beq_eq_false_iff_ne.mpr (hv ▸ hne)
            simp only [List.lookup, hb]
            exact lookup_annF_self det dims l hnd.2 p hpl

/-- A written output entry carries the name of the image it came from. -/
theorem processImage_fst {α : Type} (blur : α → ℕ × ℕ × ℕ × ℕ → α)
    (annots : List (ℕ × List (ℚ × ℚ × ℚ × ℚ))) (p q : ℕ × PImg α)
    (h : processImage blur annots p = some q) : q.1 = p.1 := by
  unfold processImage at h
  split at h
  · simp only [Option.some.injEq] at h
    rw [← h]
  · dsimp only at h
    split_ifs at h with hbs
    · simp only [Option.some.injEq] at h
      rw [← h]
    · split at h
      · simp only [Option.some.injEq] at h
        rw [← h]
      · simp at h

/-- A `filterMap` whose function succeeds on every element with the same
name and dimensions preserves the name sequence, and every output entry
matches some input dimensionally. -/
theorem filterMap_props {α : Type} (F : ℕ × PImg α → Option (ℕ × PImg α)) :
    ∀ l : List (ℕ × PImg α),
      (∀ p ∈ l, ∃ q, F p = some q ∧ q.1 = p.1 ∧ q.2.w = p.2.w ∧ q.2.h = p.2.h) →
      (l.filterMap F).map Prod.fst = l.map Prod.fst ∧
      (∀ q ∈ l.filterMap F, ∃ p, p ∈ l ∧ p.1 = q.1 ∧ q.2.w = p.2.w ∧ q.2.h = p.2.h)
  | [], _ => ⟨rfl, by simp⟩
  | p :: l, h => by
      obtain ⟨q, hq, hq1, hq2, hq3⟩ := h p (List.mem_cons_self _ _)
      obtain ⟨ih1, ih2⟩ := filterMap_props F l
        (fun x hx => h x (List.mem_cons_of_mem _ hx))
      rw [List.filterMap_cons, hq]
      constructor
      · rw [List.map_cons, List.map_cons, ih1, hq1]
      · intro r hr
        rcases List.mem_cons.mp hr with rfl | hr2
        · exact ⟨p, List.mem_cons_self _ _, hq1.symm, hq2, hq3⟩
        · obtain ⟨p2, hp2, h1, h2, h3⟩ := ih2 r hr2
          exact ⟨p2, List.mem_cons_of_mem _ hp2, h1, h2, h3⟩

/-- A name whose per-image processing failed never appears among the
outputs (given distinct names). -/
theorem fst_not_mem_filterMap {α : Type} (F : ℕ × PImg α → Option (ℕ × PImg α))
    (hfst : ∀ x q, F x = some q → q.1 = x.1) :
    ∀ l : List (ℕ × PImg α), (l.map Prod.fst).Nodup →
      ∀ p ∈ l, F p = none → p.1 ∉ (l.filterMap F).map Prod.fst
  | [], _, p, hp, _ => absurd hp (List.not_mem_nil p)
  | x :: l, hnd, p, hp, hFp => by
      rw [List.map_cons, List.nodup_cons] at hnd
      rw [List.filterMap_cons]
      rcases List.mem_cons.mp hp with rfl | hpl
      · rw [hFp]
        intro hmem
        obtain ⟨q, hq, hq1⟩ := List.mem_map.mp hmem
        obtain ⟨x2, hx2, hFx2⟩ := List.mem_filterMap.mp hq
        have : p.1 = x2.1 := by rw [← hq1, hfst x2 q hFx2]
        exact hnd.1 (this ▸ List.mem_map_of_mem Prod.fst hx2)
      · have hne : p.1 ≠ x.1 := by
          intro hc
          exact hnd.1 (hc ▸ List.mem_map_of_mem Prod.fst hpl)
        cases hFx : F x with
        | none => exact fst_not_mem_filterMap F hfst l hnd.2 p hpl hFp
        | some q =>
            have hq1 : q.1 = x.1 := hfst x q hFx
            rw [List.map_cons]
            intro hmem
            rcases List.mem_cons.mp hmem with hc | hc
            · exact hne (by rw [hc, hq1])
            · exact fst_not_mem_filterMap F hfst l hnd.2 p hpl hFp hc

/-- C5 (amended): with distinct file names, and provided every detected
box clips to a non-empty pixel region on its image (after conversion at
the reference dimensions and rounding), the output folder holds exactly
one file per readable input image — same names, same order — every
zero-detection image is written through unchanged, and every output is
dimensionally identical to its input. -/
theorem outputs_one_per_input_amended {α : Type}
    (det : PImg α → List (ℚ × ℚ × ℚ × ℚ)) (blur : α → ℕ × ℕ × ℕ × ℕ → α)
    (inputs : List (ℕ × PImg α))
    (hnd : (inputs.map Prod.fst).Nodup)
    (hok : ∀ p ∈ inputs, ∀ b ∈ det p.2,
      nonemptyClip p.2.w p.2.h (roundBox (yolo_to_voc b (refDims inputs)))) :
    ((anonymize_images det blur inputs).outputs.map Prod.fst =
      inputs.map Prod.fst) ∧
    (∀ p ∈ inputs, det p.2 = [] →
      p ∈ (anonymize_images det blur inputs).outputs) ∧
    (∀ q ∈ (anonymize_images det blur inputs).outputs,
      ∃ p, p ∈ inputs ∧ p.1 = q.1 ∧ q.2.w = p.2.w ∧ q.2.h = p.2.h) := by
  by_cases he : inputs.isEmpty
  · have hnil : inputs = [] := List.isEmpty_iff.mp he
    subst hnil
    simp [anonymize_images]
  · simp only [anonymize_images, if_neg he]
    have hsome : ∀ p ∈ inputs,
        ∃ q, processImage blur (annotRecords det inputs) p = some q ∧
          q.1 = p.1 ∧ q.2.w = p.2.w ∧ q.2.h = p.2.h := by
      intro p hp
      have hl : (annotRecords det inputs).lookup p.1 =
          Option.map Prod.snd (annF det (refDims inputs) p) :=
        lookup_annF_self det (refDims inputs) inputs hnd p hp
      unfold processImage
      rcases hd : det p.2 with - | ⟨b, bs⟩
      · have hnone : annF det (refDims inputs) p = none := by
          unfold annF
          rw [hd]
        rw [hl, hnone]
        exact ⟨p, rfl, rfl, rfl, rfl⟩
      · have hsomer : annF det (refDims inputs) p =
            some (p.1, (b :: bs).map (fun x => yolo_to_voc x (refDims inputs))) := by
          unfold annF
          rw [hd]
        rw [hl, hsomer]
        obtain ⟨im2, ha, hw, hh⟩ := anonymize_some_of_clips blur
          (((b :: bs).map (fun x => yolo_to_voc x (refDims inputs))).map roundBox)
          p.2 (by
            intro r hr
            obtain ⟨v, hv, rfl⟩ := List.mem_map.mp hr
            obtain ⟨b2, hb2, rfl⟩ := List.mem_map.mp hv
            exact hok p hp b2 (hd ▸ hb2))
        refine ⟨(p.1, im2), ?_, rfl, hw, hh⟩
        simp only [Option.map_some', ha]
        rw [if_neg (by simp)]
    obtain ⟨h1, h2⟩ := filterMap_props _ inputs hsome
    refine ⟨h1, ?_, h2⟩
    intro p hp hdet
    refine List.mem_filterMap.mpr ⟨p, hp, ?_⟩
    have hl : (annotRecords det inputs).lookup p.1 =
        Option.map Prod.snd (annF det (refDims inputs) p) :=
      lookup_annF_self det (refDims inputs) inputs hnd p hp
    have hnone : annF det (refDims inputs) p = none := by
      unfold annF
      rw [hdet]
    unfold processImage
    rw [hl, hnone]
    rfl

/-- Inputs without detections for the C5 witness run. -/
def noDet (im : PImg ℕ) : List (ℚ × ℚ × ℚ × ℚ) := []

/-- A single degenerate-box image for the C5 counterexample: the detector
reports a zero-width box. -/
def degInputC5 : List (ℕ × PImg ℕ) := [(0, ⟨10, 10, 7⟩)]

/-- Detector returning a zero-width centered box. -/
def degDetC5 (im : PImg ℕ) : List (ℚ × ℚ × ℚ × ℚ) := [(1/2, 1/2, 0, 1/5)]

/-- Counterexample for C5: the single input image is readable, but its
zero-width detection (`x_min = x_max = 5` after rounding) makes the blur
raise, the per-image handler skips it, and the output folder ends up with
NO file for it — not exactly one. -/
theorem output_missing_for_readable_input :
    (anonymize_images degDetC5 idBlur degInputC5).outputs = [] ∧
    (anonymize_images degDetC5 idBlur degInputC5).error = none ∧
    degInputC5 ≠ [] := by
  refine ⟨?_, ?_, by simp [degInputC5]⟩ <;>
    norm_num [anonymize_images, degInputC5, degDetC5, annotRecords, annF,
      refDims, minByName, yolo_to_voc, processImage, List.lookup_cons, roundBox,
      pyround, anonymize, nonemptyClip, pySliceIdx, List.filterMap_cons,
      Int.floor_eq_iff]

/-- Witness for C5 (amended): a one-image folder with no detections — the
image passes through with its name and dimensions intact. -/
theorem outputs_one_per_input_amended_witness :
    (([(0, (⟨10, 10, 3⟩ : PImg ℕ))].map Prod.fst).Nodup) ∧
    ((anonymize_images noDet idBlur [(0, (⟨10, 10, 3⟩ : PImg ℕ))]).outputs.map
      Prod.fst = [(0, (⟨10, 10, 3⟩ : PImg ℕ))].map Prod.fst) ∧
    ((0, (⟨10, 10, 3⟩ : PImg ℕ)) ∈
      (anonymize_images noDet idBlur [(0, (⟨10, 10, 3⟩ : PImg ℕ))]).outputs) := by
  have happ := outputs_one_per_input_amended noDet idBlur
    [(0, (⟨10, 10, 3⟩ : PImg ℕ))] (by simp)
    (by
      intro p hp b hb
      simp [noDet] at hb)
  exact ⟨by simp, happ.1,
    happ.2.1 (0, ⟨10, 10, 3⟩) (List.mem_cons_self _ _) rfl⟩

/-- C10 (amended): a degenerate (zero-area after rounding/clipping) box is
NOT a no-op: `cv2.GaussianBlur` rejects the empty region, the per-image
handler catches the error and the run continues with no overall failure,
but the affected image is skipped — it is not written to the output
folder. -/
theorem degenerate_box_skips_image {α : Type}
    (det : PImg α → List (ℚ × ℚ × ℚ × ℚ)) (blur : α → ℕ × ℕ × ℕ × ℕ → α)
    (inputs : List (ℕ × PImg α)) (hnd : (inputs.map Prod.fst).Nodup)
    (p : ℕ × PImg α) (hp : p ∈ inputs)
    (hbad : ∃ b ∈ det p.2,
      ¬ nonemptyClip p.2.w p.2.h (roundBox (yolo_to_voc b (refDims inputs)))) :
    p.1 ∉ (anonymize_images det blur inputs).outputs.map Prod.fst ∧
    (anonymize_images det blur inputs).error = none := by
  have hne : ¬ inputs.isEmpty := by
    cases inputs with
    | nil => exact absurd hp (List.not_mem_nil p)
    | cons a l => simp
  simp only [anonymize_images, if_neg hne]
  obtain ⟨b0, hb0, hbad0⟩ := hbad
  have hF : processImage blur (annotRecords det inputs) p = none := by
    have hl : (annotRecords det inputs).lookup p.1 =
        Option.map Prod.snd (annF det (refDims inputs) p) :=
      lookup_annF_self det (refDims inputs) inputs hnd p hp
    rcases hd : det p.2 with - | ⟨b, bs⟩
    · rw [hd] at hb0
      exact absurd hb0 (List.not_mem_nil b0)
    · have hsomer : annF det (refDims inputs) p =
          some (p.1, (b :: bs).map (fun x => yolo_to_voc x (refDims inputs))) := by
        unfold annF
        rw [hd]
      unfold processImage
      rw [hl, hsomer]
      simp only [Option.map_some']
      rw [if_neg (by simp)]
      have hanone : anonymize blur p.2
          (((b :: bs).map (fun x => yolo_to_voc x (refDims inputs))).map roundBox) =
            none := by
        refine anonymize_none_of_bad blur _ _
          ⟨roundBox (yolo_to_voc b0 (refDims inputs)), ?_, hbad0⟩
        exact List.mem_map_of_mem roundBox
          (List.mem_map_of_mem _ (hd ▸ hb0))
      rw [hanone]
  exact ⟨fst_not_mem_filterMap _ (fun x q => processImage_fst blur _ x q)
    inputs hnd p hp hF, by simp⟩

/-- One clean image and one image with a zero-height detection for the C10
counterexample and witness. -/
def degInputsC10 : List (ℕ × PImg ℕ) := [(0, ⟨10, 10, 1⟩), (1, ⟨10, 10, 2⟩)]

/-- Detector reporting a zero-height box for the second image only. -/
def degDetC10 (im : PImg ℕ) : List (ℚ × ℚ × ℚ × ℚ) :=
  if im.data = 2 then [(1/2, 1/2, 1/5, 0)] else []

/-- Counterexample for C10: with a degenerate (zero-height) box on image 1
the run does not fail and the clean image is written, but image 1 itself
is skipped — it is NOT "left unchanged and still written". -/
theorem degenerate_box_counterexample :
    (anonymize_images degDetC10 idBlur degInputsC10).outputs =
      [(0, ⟨10, 10, 1⟩)] ∧
    (anonymize_images degDetC10 idBlur degInputsC10).error = none := by
  constructor <;>
    norm_num [anonymize_images, degInputsC10, degDetC10, annotRecords, annF,
      refDims, minByName, yolo_to_voc, processImage, List.lookup_cons, roundBox,
      pyround, anonymize, nonemptyClip, pySliceIdx, List.filterMap_cons,
      Int.floor_eq_iff, (show ((0:ℕ) == 1) = false from rfl),
      (show ((1:ℕ) == 1) = true from rfl)]

/-- Witness for C10 (amended): the amended theorem applied to the
degenerate-box image of `degInputsC10`. -/
theorem degenerate_box_skips_image_witness :
    ((degInputsC10.map Prod.fst).Nodup) ∧
    ((1, (⟨10, 10, 2⟩ : PImg ℕ)) ∈ degInputsC10) ∧
    ((1 : ℕ) ∉
      (anonymize_images degDetC10 idBlur degInputsC10).outputs.map Prod.fst ∧
      (anonymize_images degDetC10 idBlur degInputsC10).error = none) := by
  refine ⟨by simp [degInputsC10], by simp [degInputsC10], ?_⟩
  exact degenerate_box_skips_image degDetC10 idBlur degInputsC10
    (by simp [degInputsC10]) (1, ⟨10, 10, 2⟩) (by simp [degInputsC10])
    ⟨((1:ℚ)/2, (1:ℚ)/2, (1:ℚ)/5, (0:ℚ)), by norm_num [degDetC10], by
      norm_num [degInputsC10, refDims, minByName, yolo_to_voc, roundBox,
        pyround, nonemptyClip, pySliceIdx, Int.floor_eq_iff]⟩

/-! ### Batching algebra (C4) -/

/-- A non-empty folder has a name-minimal entry, and it is in the folder. -/
theorem minByName_isSome_mem {α : Type} :
    ∀ l : List (ℕ × PImg α), l ≠ [] → ∃ y, minByName l = some y ∧ y ∈ l
  | [], h => absurd rfl h
  | p :: l, _ => by
      cases hl : l with
      | nil => exact ⟨p, by simp [minByName], List.mem_cons_self _ _⟩
      | cons q l2 =>
          obtain ⟨y, hy, hymem⟩ := minByName_isSome_mem (q :: l2) (by simp)
          have hstep : minByName (p :: q :: l2) =
              some ((minByName (q :: l2)).elim p
                (fun y => if p.1 ≤ y.1 then p else y)) := rfl
          rw [hstep, hy, Option.elim_some]
          split_ifs with hle
          · exact ⟨p, rfl, List.mem_cons_self _ _⟩
          · exact ⟨y, rfl, List.mem_cons_of_mem _ (hl ▸ hymem)⟩

/-- If the head's name is minimal, the name-minimal entry is the head. -/
theorem minByName_head {α : Type} (x : ℕ × PImg α) :
    ∀ l : List (ℕ × PImg α), (∀ p ∈ l, x.1 ≤ p.1) → minByName (x :: l) = some x := by
  intro l hmin
  cases hl : l with
  | nil => simp [minByName]
  | cons q l2 =>
      obtain ⟨y, hy, hymem⟩ := minByName_isSome_mem (q :: l2) (by simp)
      have hstep : minByName (x :: q :: l2) =
          some ((minByName (q :: l2)).elim x (fun y => if x.1 ≤ y.1 then x else y)) :=
        rfl
      rw [hstep, hy, Option.elim_some, if_pos (hmin y (hl ▸ hymem))]

/-- When all images share the same dimensions, the reference dimensions of
a non-empty folder are exactly those dimensions. -/
theorem refDims_const {α : Type} (l : List (ℕ × PImg α)) (hne : l ≠ [])
    (w0 h0 : ℕ) (hdims : ∀ p ∈ l, p.2.w = w0 ∧ p.2.h = h0) :
    refDims l = ((w0 : ℚ), (h0 : ℚ)) := by
  obtain ⟨y, hy, hymem⟩ := minByName_isSome_mem l hne
  obtain ⟨h1, h2⟩ := hdims y hymem
  unfold refDims
  rw [hy, Option.elim_some, h1, h2]

/-- Peeling one batch off the slicing. -/
theorem batchSlices_cons {β : Type} (bs : ℕ) (hbs : 0 < bs) (l : List β)
    (hne : l ≠ []) :
    batchSlices bs l = l.take bs :: batchSlices bs (l.drop bs) := by
  have hn : 1 ≤ l.length := List.length_pos.mpr hne
  have hK : (l.length + bs - 1) / bs = ((l.drop bs).length + bs - 1) / bs + 1 := by
    rw [List.length_drop]
    rcases le_or_lt l.length bs with h | h
    · have h1 : l.length - bs = 0 := by omega
      rw [h1]
      have h2 : l.length + bs - 1 = (l.length - 1) + bs := by omega
      rw [h2, Nat.add_div_right _ hbs, Nat.div_eq_of_lt (by omega),
        Nat.div_eq_of_lt (by omega)]
    · have h2 : l.length + bs - 1 = (l.length - bs + bs - 1) + bs := by omega
      rw [h2, Nat.add_div_right _ hbs]
  unfold batchSlices
  rw [hK, List.range_succ_eq_map, List.map_cons, List.map_map]
  refine congrArg₂ _ (by simp) ?_
  refine List.map_congr_left ?_
  intro k _
  simp only [Function.comp]
  rw [List.drop_drop, Nat.succ_mul, Nat.add_comm (k * bs) bs]

/-- Joining the batches restores the folder listing. -/
theorem batchSlices_join {β : Type} (bs : ℕ) (hbs : 0 < bs) :
    ∀ l : List β, (batchSlices bs l).flatten = l := by
  intro l
  obtain ⟨n, hn⟩ : ∃ n, l.length = n := ⟨_, rfl⟩
  induction n using Nat.strong_induction_on generalizing l with
  | _ n ih =>
      cases l with
      | nil =>
          simp [batchSlices, Nat.div_eq_of_lt (show bs - 1 < bs by omega)]
      | cons x xs =>
          rw [batchSlices_cons bs hbs _ (by simp), List.flatten_cons,
            ih ((x :: xs).drop bs).length
              (by
                simp only [List.length_drop, List.length_cons]
                simp only [List.length_cons] at hn
                omega) _ rfl,
            List.take_append_drop]

/-- Every batch is a non-empty sublist of the folder. -/
theorem batchSlices_mem_props {β : Type} (bs : ℕ) (hbs : 0 < bs) :
    ∀ l : List β, ∀ c ∈ batchSlices bs l, c ≠ [] ∧ c.Sublist l := by
  intro l
  obtain ⟨n, hn⟩ : ∃ n, l.length = n := ⟨_, rfl⟩
  induction n using Nat.strong_induction_on generalizing l with
  | _ n ih =>
      cases l with
      | nil =>
          intro c hc
          rw [show batchSlices bs ([] : List β) = [] from by
            simp [batchSlices, Nat.div_eq_of_lt (show bs - 1 < bs by omega)]] at hc
          exact absurd hc (List.not_mem_nil c)
      | cons x xs =>
          intro c hc
          rw [batchSlices_cons bs hbs _ (by simp)] at hc
          rcases List.mem_cons.mp hc with rfl | hc2
          · refine ⟨?_, List.take_sublist _ _⟩
            simp only [ne_eq, List.take_eq_nil_iff]
            push_neg
            exact ⟨by omega, by simp⟩
          · obtain ⟨h1, h2⟩ := ih ((x :: xs).drop bs).length
              (by
                simp only [List.length_drop, List.length_cons]
                simp only [List.length_cons] at hn
                omega) _ rfl c hc2
            exact ⟨h1, h2.trans (List.drop_sublist _ _)⟩

/-- Per-image processing depends on the record store only through the
image's own lookup. -/
theorem processImage_lookup_congr {α : Type} (blur : α → ℕ × ℕ × ℕ × ℕ → α)
    (A B : List (ℕ × List (ℚ × ℚ × ℚ × ℚ))) (p : ℕ × PImg α)
    (h : A.lookup p.1 = B.lookup p.1) :
    processImage blur A p = processImage blur B p := by
  unfold processImage
  rw [h]

/-- Normal form of a non-empty single run. -/
theorem anonymize_images_eq {α : Type} (det : PImg α → List (ℚ × ℚ × ℚ × ℚ))
    (blur : α → ℕ × ℕ × ℕ × ℕ → α) (l : List (ℕ × PImg α))
    (hne : ¬ l.isEmpty) :
    anonymize_images det blur l =
      ⟨l.filterMap (processImage blur (l.filterMap (annF det (refDims l)))),
        l.filterMap (annF det (refDims l)),
        (l.filterMap (processImage blur
          (l.filterMap (annF det (refDims l))))).length,
        none⟩ := by
  simp only [anonymize_images, if_neg hne, annotRecords]

/-- A run over batches that all evaluate by the same per-element functions
concatenates to the run over the joined folder. -/
theorem runBatches_uniform {α : Type} (det : PImg α → List (ℚ × ℚ × ℚ × ℚ))
    (blur : α → ℕ × ℕ × ℕ × ℕ → α) (G : ℕ × PImg α → Option (ℕ × PImg α))
    (A : ℕ × PImg α → Option (ℕ × List (ℚ × ℚ × ℚ × ℚ))) :
    ∀ chunks : List (List (ℕ × PImg α)),
      (∀ c ∈ chunks, anonymize_images det blur c =
        ⟨c.filterMap G, c.filterMap A, (c.filterMap G).length, none⟩) →
      runBatches det blur chunks =
        ⟨chunks.flatten.filterMap G, chunks.flatten.filterMap A,
          (chunks.flatten.filterMap G).length, none⟩
  | [], _ => by simp [runBatches]
  | c :: cs, h => by
      have hc := h c (List.mem_cons_self _ _)
      have ih := runBatches_uniform det blur G A cs
        (fun x hx => h x (List.mem_cons_of_mem _ hx))
      simp only [runBatches, hc, ih, List.flatten_cons, List.filterMap_append,
        List.length_append]

/-- C4 (amended): with distinct file names and all input images sharing
the same dimensions, the batched pipeline (fixed 500-image batches for
folders larger than 500) produces exactly the same result — written
files, sidecar box lists, processed count and error — as a single
non-batched run.  (Without the shared-dimensions proviso the box lists can
differ: each batch converts at its own first image's dimensions.) -/
theorem batching_transparent {α : Type}
    (det : PImg α → List (ℚ × ℚ × ℚ × ℚ)) (blur : α → ℕ × ℕ × ℕ × ℕ → α)
    (inputs : List (ℕ × PImg α))
    (hnd : (inputs.map Prod.fst).Nodup) (w0 h0 : ℕ)
    (hdims : ∀ p ∈ inputs, p.2.w = w0 ∧ p.2.h = h0) :
    process_anonymization det blur inputs = anonymize_images det blur inputs := by
  unfold process_anonymization
  split_ifs with hlen
  · have hne : inputs ≠ [] := by
      intro hc
      rw [hc] at hlen
      simp at hlen
    have hnem : ¬ inputs.isEmpty := by simp [hne]
    have hDin : refDims inputs = ((w0 : ℚ), (h0 : ℚ)) :=
      refDims_const inputs hne w0 h0 hdims
    have hchunk : ∀ c ∈ batchSlices 500 inputs,
        anonymize_images det blur c =
          ⟨c.filterMap (processImage blur
              (inputs.filterMap (annF det ((w0 : ℚ), (h0 : ℚ))))),
            c.filterMap (annF det ((w0 : ℚ), (h0 : ℚ))),
            (c.filterMap (processImage blur
              (inputs.filterMap (annF det ((w0 : ℚ), (h0 : ℚ)))))).length,
            none⟩ := by
      intro c hc
      obtain ⟨hcne, hcsub⟩ := batchSlices_mem_props 500 (by norm_num) inputs c hc
      have hcsubm : ∀ p ∈ c, p ∈ inputs := fun p hp => hcsub.subset hp
      have hcnd : (c.map Prod.fst).Nodup := hnd.sublist (hcsub.map Prod.fst)
      have hDc : refDims c = ((w0 : ℚ), (h0 : ℚ)) :=
        refDims_const c hcne w0 h0 (fun p hp => hdims p (hcsubm p hp))
      rw [anonymize_images_eq det blur c (by simp [hcne]), hDc]
      have hout : c.filterMap (processImage blur
          (c.filterMap (annF det ((w0 : ℚ), (h0 : ℚ))))) =
          c.filterMap (processImage blur
            (inputs.filterMap (annF det ((w0 : ℚ), (h0 : ℚ))))) := by
        refine List.filterMap_congr ?_
        intro p hp
        refine processImage_lookup_congr blur _ _ p ?_
        rw [lookup_annF_self det _ c hcnd p hp,
          lookup_annF_self det _ inputs hnd p (hcsubm p hp)]
      rw [hout]
    rw [runBatches_uniform det blur _ _ (batchSlices 500 inputs) hchunk,
      batchSlices_join 500 (by norm_num) inputs,
      anonymize_images_eq det blur inputs hnem, hDin]
  · rfl

/-- Witness for C4 (amended): a two-image folder (under the batch
threshold, so both paths take the single-run branch) with distinct names
and shared 10×10 dimensions. -/
theorem batching_transparent_witness :
    (([(0, (⟨10, 10, 1⟩ : PImg ℕ)), (1, ⟨10, 10, 2⟩)].map Prod.fst).Nodup) ∧
    (∀ p ∈ [(0, (⟨10, 10, 1⟩ : PImg ℕ)), (1, ⟨10, 10, 2⟩)],
      p.2.w = 10 ∧ p.2.h = 10) ∧
    process_anonymization noDet idBlur
        [(0, (⟨10, 10, 1⟩ : PImg ℕ)), (1, ⟨10, 10, 2⟩)] =
      anonymize_images noDet idBlur
        [(0, (⟨10, 10, 1⟩ : PImg ℕ)), (1, ⟨10, 10, 2⟩)] := by
  refine ⟨by simp, ?_, ?_⟩
  · intro p hp
    fin_cases hp <;> exact ⟨rfl, rfl⟩
  · exact batching_transparent noDet idBlur _ (by simp) 10 10
      (by
        intro p hp
        fin_cases hp <;> exact ⟨rfl, rfl⟩)

/-- A 501-image folder: image 500 is 5×5, all others 10×10. -/
def bigImg (k : ℕ) : PImg ℕ := if k = 500 then ⟨5, 5, 0⟩ else ⟨10, 10, 0⟩

/-- The 501 images named 0 … 500 in listing order. -/
def bigInputs : List (ℕ × PImg ℕ) := (List.range 501).map (fun k => (k, bigImg k))

/-- A detector that reports one centered half-size box on the 5×5 image
and nothing elsewhere. -/
def bigDet (im : PImg ℕ) : List (ℚ × ℚ × ℚ × ℚ) :=
  if im.w = 5 then [(1/2, 1/2, 1/2, 1/2)] else []

/-- The sidecar records over a prefix of the big folder: only image 500
has a record, converted at the given reference dimensions. -/
theorem filterMap_annF_bigGen (dims : ℚ × ℚ) :
    ∀ n : ℕ, (((List.range n).map (fun k => (k, bigImg k))).filterMap
        (annF bigDet dims)) =
      if 500 < n then [(500, [yolo_to_voc (1/2, 1/2, 1/2, 1/2) dims])] else []
  | 0 => by simp
  | n + 1 => by
      rw [List.range_succ, List.map_append, List.filterMap_append,
        filterMap_annF_bigGen dims n]
      by_cases h5 : n = 500
      · subst h5
        have hann : annF bigDet dims (500, bigImg 500) =
            some (500, [yolo_to_voc (1/2, 1/2, 1/2, 1/2) dims]) := by
          simp [annF, bigDet, bigImg]
        simp only [List.map_cons, List.map_nil, List.filterMap_cons,
          List.filterMap_nil, hann]
        norm_num
      · have hann : annF bigDet dims (n, bigImg n) = none := by
          simp [annF, bigDet, bigImg, h5]
        simp only [List.map_cons, List.map_nil, List.filterMap_cons,
          List.filterMap_nil, hann, List.append_nil]
        by_cases hlt : 500 < n
        · rw [if_pos hlt, if_pos (by omega)]
        · rw [if_neg hlt, if_neg (by omega)]

/-- The name-minimal entry of any nonempty prefix of the big folder is
image 0. -/
theorem minByName_bigGen (n : ℕ) :
    minByName ((List.range (n + 1)).map (fun k => (k, bigImg k))) =
      some (0, bigImg 0) := by
  rw [List.range_succ_eq_map, List.map_cons, List.map_map]
  exact minByName_head _ _ (fun p _ => Nat.zero_le _)

/-- The two batches of the big folder: images 0 … 499, then image 500
alone. -/
theorem batchSlices_bigInputs :
    batchSlices 500 bigInputs =
      [(List.range 500).map (fun k => (k, bigImg k)), [(500, bigImg 500)]] := by
  have hlen : bigInputs.length = 501 := by simp [bigInputs]
  unfold batchSlices
  rw [hlen]
  rw [show ((501 : ℕ) + 500 - 1) / 500 = 2 by norm_num]
  rw [show List.range 2 = [0, 1] by rfl]
  simp only [List.map_cons, List.map_nil, Nat.zero_mul, Nat.one_mul,
    List.drop_zero]
  refine congrArg₂ _ ?_ (congrArg₂ _ ?_ rfl)
  · rw [bigInputs, ← List.map_take, List.take_range]
    norm_num
  · rw [bigInputs, ← List.map_drop, List.range_succ,
      List.drop_left' (List.length_range 500)]
    rfl

/-- Counterexample for C4: on the 501-image folder `bigInputs`, the
batched pipeline converts image 500's box with batch 2's reference
dimensions (5×5, its own batch's first image), while the non-batched run
converts it with the global first image's dimensions (10×10) — the
per-image box-list contents differ. -/
theorem batching_counterexample :
    (process_anonymization bigDet idBlur bigInputs).annots =
      [(500, [((5:ℚ)/4, (5:ℚ)/4, (15:ℚ)/4, (15:ℚ)/4)])] ∧
    (anonymize_images bigDet idBlur bigInputs).annots =
      [(500, [((5:ℚ)/2, (5:ℚ)/2, (15:ℚ)/2, (15:ℚ)/2)])] ∧
    ([((5:ℚ)/4, (5:ℚ)/4, (15:ℚ)/4, (15:ℚ)/4)] : List (ℚ × ℚ × ℚ × ℚ)) ≠
      [((5:ℚ)/2, (5:ℚ)/2, (15:ℚ)/2, (15:ℚ)/2)] := by
  have hne : ¬ bigInputs.isEmpty := by
    simp [bigInputs]
  have href : refDims bigInputs = (10, 10) := by
    unfold refDims
    rw [show bigInputs = (List.range (500 + 1)).map (fun k => (k, bigImg k))
      from rfl]
    rw [minByName_bigGen 500, Option.elim_some]
    norm_num [bigImg]
  refine ⟨?_, ?_, ?_⟩
  · -- batched path
    have hlen : 500 < bigInputs.length := by simp [bigInputs]
    have hc0ne : ¬ ((List.range 500).map
        (fun k => (k, bigImg k))).isEmpty := by
      simp [show (0:ℕ) < 500 by norm_num, List.isEmpty_iff]
    have hrefc0 : refDims ((List.range 500).map (fun k => (k, bigImg k))) =
        (10, 10) := by
      unfold refDims
      rw [show (500 : ℕ) = 499 + 1 from rfl, minByName_bigGen 499,
        Option.elim_some]
      norm_num [bigImg]
    have hrefc1 : refDims [((500 : ℕ), bigImg 500)] = (5, 5) := by
      unfold refDims
      norm_num [minByName, bigImg]
    have h0 := anonymize_images_eq bigDet idBlur
      ((List.range 500).map (fun k => (k, bigImg k))) hc0ne
    have h1 := anonymize_images_eq bigDet idBlur [((500 : ℕ), bigImg 500)]
      (by simp)
    unfold process_anonymization
    rw [if_pos hlen, batchSlices_bigInputs]
    simp only [runBatches, h0, h1]
    rw [hrefc0, hrefc1]
    rw [filterMap_annF_bigGen (10, 10) 500]
    have hsingle : ([((500 : ℕ), bigImg 500)].filterMap
        (annF bigDet (5, 5))) =
        [(500, [yolo_to_voc (1/2, 1/2, 1/2, 1/2) (5, 5)])] := by
      simp [annF, bigDet, bigImg]
    rw [hsingle]
    norm_num [yolo_to_voc]
  · -- non-batched run
    have heq := anonymize_images_eq bigDet idBlur bigInputs hne
    simp only [heq]
    rw [href, show bigInputs = (List.range 501).map (fun k => (k, bigImg k))
      from rfl, filterMap_annF_bigGen (10, 10) 501]
    norm_num [yolo_to_voc]
  · simp only [ne_eq, List.cons.injEq, Prod.mk.injEq]
    norm_num

end Tanaw
